import Mathlib

/-!
Shallow embedding of the PromptHub SQLite storage layer
(`database/sqlite_storage.py`) and proofs about its category tree,
tag registry, prompt repository and version store.

Modelling conventions:
* each SQLite table is a `List` of rows kept in insertion order
  (SQLite's default scan order), `SELECT ... WHERE` point lookups are
  `List.find?`, `UPDATE ... WHERE` is `List.map` guarded by the row
  predicate, `DELETE ... WHERE` is `List.filter` with the negated
  predicate, and `cursor.rowcount` is `List.countP`;
* `datetime.now().isoformat()` timestamps are modelled as a `Nat`
  logical clock passed in by the caller (`now`), and `uuid.uuid4()`
  is modelled as a caller-supplied fresh identifier;
* Python dicts used as partial-update payloads are structures of
  `Option` fields (`none` = key absent), and a nullable value inside a
  present key is a nested `Option`;
* a Python function that returns `None` on a missing row is modelled
  with `Option`, one that raises / returns `{"success": False}` with
  `Except`.
-/

structure Category where
  id : String
  name : String
  color : String
  description : String
  parent_id : Option String
  level : Nat
  path : String
  created_at : Nat
  updated_at : Nat
deriving Repr, DecidableEq

structure Prompt where
  id : String
  title : String
  content : String
  description : String
  category_id : Option String
  category_name : String
  category_path : String
  usage_count : Nat
  current_version : String
  created_at : Nat
  updated_at : Nat
deriving Repr, DecidableEq

structure PromptVersion where
  prompt_id : String
  version : String
  title : String
  content : String
  description : String
  change_note : String
  created_at : Nat
deriving Repr, DecidableEq

structure Tag where
  id : String
  name : String
  color : String
  created_at : Nat
  updated_at : Nat
deriving Repr, DecidableEq

structure PromptTag where
  prompt_id : String
  tag_id : String
  created_at : Nat
deriving Repr, DecidableEq

structure Store where
  prompts : List Prompt
  prompt_versions : List PromptVersion
  categories : List Category
  tags : List Tag
  prompt_tags : List PromptTag
deriving Repr, DecidableEq

/-- `SQLiteStorage._prompt_exists`: `SELECT 1 FROM prompts WHERE id = ?`. -/
def prompt_exists (s : Store) (pid : String) : Bool :=
  s.prompts.any (fun p => decide (p.id = pid))

/-- `SQLiteStorage.delete_prompt_version`.  Returns the (possibly
unchanged) store together with the success / error outcome; the Python
function only commits on the success path, so on every error branch the
store is returned unchanged. -/
def delete_prompt_version (s : Store) (pid version : String) :
    Store × Except String Unit :=
  if ¬ prompt_exists s pid then
    (s, Except.error "prompt does not exist")
  else
    let version_count := s.prompt_versions.countP (fun v => decide (v.prompt_id = pid))
    if version_count ≤ 1 then
      (s, Except.error "cannot delete the only version")
    else
      match s.prompts.find? (fun p => decide (p.id = pid)) with
      | none => (s, Except.error "prompt does not exist")
      | some p =>
        if p.current_version = version then
          (s, Except.error "cannot delete the current version; switch first")
        else
          let deleted := s.prompt_versions.countP
            (fun v => decide (v.prompt_id = pid ∧ v.version = version))
          if deleted = 0 then
            (s, Except.error "version does not exist")
          else
            ({ s with prompt_versions := (s.prompt_versions.filter
                (fun v => decide (¬ (v.prompt_id = pid ∧ v.version = version)))) },
             Except.ok ())

/-- `delete_prompt_version` as the claim describes it: the entries whose
`(prompt_id, version)` match the requested pair. -/
def versionEntries (s : Store) (pid version : String) : List PromptVersion :=
  s.prompt_versions.filter (fun v => decide (v.prompt_id = pid ∧ v.version = version))

theorem prompt_exists_iff (s : Store) (pid : String) :
    prompt_exists s pid = true ↔ ∃ p ∈ s.prompts, p.id = pid := by
  simp [prompt_exists]

/-- C1, amended.  For a prompt that exists: deleting fails (store
unchanged) when the prompt has at most one version, fails when the label
is the active version, fails when no entry bears the label, and
otherwise removes exactly the entries bearing the label (a single entry
whenever version labels are unique within the prompt) and no other
version row. -/
theorem delete_prompt_version_spec (s : Store) (pid version : String) (p : Prompt)
    (hfind : s.prompts.find? (fun q => decide (q.id = pid)) = some p) :
    (s.prompt_versions.countP (fun v => decide (v.prompt_id = pid)) ≤ 1 →
      delete_prompt_version s pid version =
        (s, Except.error "cannot delete the only version")) ∧
    (2 ≤ s.prompt_versions.countP (fun v => decide (v.prompt_id = pid)) →
      p.current_version = version →
      delete_prompt_version s pid version =
        (s, Except.error "cannot delete the current version; switch first")) ∧
    (2 ≤ s.prompt_versions.countP (fun v => decide (v.prompt_id = pid)) →
      p.current_version ≠ version →
      versionEntries s pid version = [] →
      delete_prompt_version s pid version = (s, Except.error "version does not exist")) ∧
    (2 ≤ s.prompt_versions.countP (fun v => decide (v.prompt_id = pid)) →
      p.current_version ≠ version →
      versionEntries s pid version ≠ [] →
      delete_prompt_version s pid version =
        ({ s with prompt_versions := (s.prompt_versions.filter
            (fun v => decide (¬ (v.prompt_id = pid ∧ v.version = version)))) },
         Except.ok ())) := by
  have hex : prompt_exists s pid = true := by
    rcases List.find?_some hfind with h
    have hmem := List.mem_of_find?_eq_some hfind
    simp only [decide_eq_true_eq] at h
    exact (prompt_exists_iff s pid).mpr ⟨p, hmem, h⟩
  have hcnt0 : s.prompt_versions.countP
      (fun v => decide (v.prompt_id = pid ∧ v.version = version)) = 0 ↔
      versionEntries s pid version = [] := by
    simp [versionEntries, List.countP_eq_zero, List.filter_eq_nil_iff]
  refine ⟨?_, ?_, ?_, ?_⟩
  · intro hle
    simp [delete_prompt_version, hex, hle]
  · intro hge hcur
    have : ¬ s.prompt_versions.countP (fun v => decide (v.prompt_id = pid)) ≤ 1 := by omega
    simp [delete_prompt_version, hex, this, hfind, hcur]
  · intro hge hcur hnone
    have h1 : ¬ s.prompt_versions.countP (fun v => decide (v.prompt_id = pid)) ≤ 1 := by omega
    have h2 : s.prompt_versions.countP
        (fun v => decide (v.prompt_id = pid ∧ v.version = version)) = 0 := hcnt0.mpr hnone
    have h3 := List.filter_eq_nil_iff.mp hnone
    simp only [decide_eq_true_eq, not_and] at h3
    simp [delete_prompt_version, hex, h1, hfind, hcur, h2]
    exact h3
  · intro hge hcur hsome
    have h1 : ¬ s.prompt_versions.countP (fun v => decide (v.prompt_id = pid)) ≤ 1 := by omega
    have h2 : s.prompt_versions.countP
        (fun v => decide (v.prompt_id = pid ∧ v.version = version)) ≠ 0 :=
      fun h => hsome (hcnt0.mp h)
    obtain ⟨y, hy⟩ := List.exists_mem_of_ne_nil _ hsome
    have hy' := List.mem_filter.mp hy
    have hy2 : y.prompt_id = pid ∧ y.version = version := by simpa using hy'.2
    refine Eq.trans ?_ rfl
    simp [delete_prompt_version, hex, h1, hfind, hcur, h2]
    exact ⟨y, hy'.1, hy2⟩

def c1Prompt : Prompt :=
  { id := "p1", title := "t", content := "c", description := "", category_id := none,
    category_name := "其他", category_path := "其他", usage_count := 0,
    current_version := "1.0", created_at := 0, updated_at := 0 }

def c1Version (v : String) (t : Nat) : PromptVersion :=
  { prompt_id := "p1", version := v, title := "t", content := "c", description := "",
    change_note := "", created_at := t }

def c1Store : Store :=
  { prompts := [c1Prompt],
    prompt_versions := [c1Version "1.0" 0, c1Version "1.1" 1, c1Version "1.1" 2],
    categories := [], tags := [], prompt_tags := [] }

/-- C1, counterexample to the claim as stated.  `create_prompt_version`
never validates version labels, so two entries can share the label
"1.1"; deleting "1.1" (not the active version, three versions present)
succeeds but removes BOTH entries bearing the label — not "exactly that
one version entry": three versions minus one entry would leave two, yet
only one remains (`length = 1`, not `2`). -/
theorem delete_prompt_version_counterexample :
    delete_prompt_version c1Store "p1" "1.1" =
      ({ c1Store with prompt_versions := [c1Version "1.0" 0] }, Except.ok ()) ∧
    c1Store.prompt_versions.length = 3 ∧
    (delete_prompt_version c1Store "p1" "1.1").1.prompt_versions.length = 1 :=
  ⟨rfl, rfl, rfl⟩

/-- C1 witness: the amended theorem applied to the concrete store. -/
theorem delete_prompt_version_spec_witness :
    delete_prompt_version c1Store "p1" "1.0" =
      (c1Store, Except.error "cannot delete the current version; switch first") :=
  (delete_prompt_version_spec c1Store "p1" "1.0" c1Prompt rfl).2.1
    (by decide) rfl

/-- `SQLiteStorage._build_category_path`.  The Python function recurses
along `parent_id` with no bound (it diverges on a cyclic table); the
`fuel` argument makes the recursion structural, and callers pass
`categories.length`, which is enough fuel for every acyclic table (the
parent chain of a category visits pairwise distinct rows). -/
def buildCategoryPath : Nat → String → List Category → String
  | 0, _, _ => ""
  | fuel + 1, cid, cats =>
    match cats.find? (fun c => decide (c.id = cid)) with
    | none => ""
    | some c =>
      match c.parent_id with
      | none => c.name
      | some pid =>
        let parent_path := buildCategoryPath fuel pid cats
        if parent_path = "" then c.name else parent_path ++ "/" ++ c.name

/-- `SQLiteStorage._update_category_paths`: one pass over a snapshot of
the whole table, rewriting every row's `path`. -/
def updateCategoryPaths (cats : List Category) : List Category :=
  cats.map (fun c => { c with path := buildCategoryPath cats.length c.id cats })

/-- `SELECT id FROM categories WHERE parent_id = ?` inside
`get_category_descendants`. -/
def childIds (cats : List Category) (pid : String) : List String :=
  (cats.filter (fun c => decide (c.parent_id = some pid))).map (fun c => c.id)

/-- The recursive `find_children` walk of
`SQLiteStorage.get_category_descendants` (depth-first, preorder), again
with fuel standing in for the unbounded Python recursion. -/
def descend : Nat → List Category → String → List String
  | 0, _, _ => []
  | fuel + 1, cats, cid =>
    (childIds cats cid).flatMap (fun k => k :: descend fuel cats k)

/-- `SQLiteStorage.get_category_descendants`. -/
def get_category_descendants (s : Store) (cid : String) : List String :=
  descend s.categories.length s.categories cid

/-- `SQLiteStorage._would_create_cycle`. -/
def would_create_cycle (s : Store) (cid new_parent_id : String) : Bool :=
  decide (cid = new_parent_id) || (get_category_descendants s cid).contains new_parent_id

/-- `x` is (the id of) a strict descendant of the category id `root` in
the table `cats`: there is a parent chain from some row with id `x` up
to `root`. -/
inductive CatDesc (cats : List Category) : String → String → Prop
  | base (root : String) (c : Category) : c ∈ cats → c.parent_id = some root →
      CatDesc cats root c.id
  | tail (root : String) (c : Category) (k : String) : c ∈ cats →
      c.parent_id = some root → CatDesc cats c.id k → CatDesc cats root k

/-- Well-formedness of the category table, mirroring the data-model
invariants of the specification (§3): primary-key uniqueness of `id`,
ids and names non-empty (ids are UUID4 strings or the seeded `"0"`),
and an acyclic parent relation, expressed by a rank function that
strictly decreases from child to parent and is bounded by the table
size (any acyclic forest admits one, e.g. the depth of each node). -/
structure CatWF (cats : List Category) : Prop where
  nodup_ids : (cats.map (fun c => c.id)).Nodup
  ids_ne : ∀ c ∈ cats, c.id ≠ ""
  names_ne : ∀ c ∈ cats, c.name ≠ ""
  acyclic : ∃ r : String → Nat,
    (∀ c ∈ cats, ∀ p ∈ cats, c.parent_id = some p.id → r p.id < r c.id) ∧
    (∀ c ∈ cats, r c.id < cats.length)

/-- The materialized-path invariant of the claim: every root's path is
its name, and every category whose parent resolves has
`path = parent.path ++ "/" ++ name`. -/
def PathInv (cats : List Category) : Prop :=
  ∀ c ∈ cats,
    (c.parent_id = none → c.path = c.name) ∧
    (∀ pid p, c.parent_id = some pid → p ∈ cats → p.id = pid →
      c.path = p.path ++ "/" ++ c.name)

/-- The level invariant of the claim: roots have level 1, and a category
whose parent resolves has `level = parent.level + 1`. -/
def LevelInv (cats : List Category) : Prop :=
  ∀ c ∈ cats,
    (c.parent_id = none → c.level = 1) ∧
    (∀ pid p, c.parent_id = some pid → p ∈ cats → p.id = pid →
      c.level = p.level + 1)

/-- Truthiness of a nullable string in Python (`if parent_id:`):
`None` and the empty string are falsy. -/
def strTruthy : Option String → Bool
  | none => false
  | some x => decide (x ≠ "")

inductive StoreErr
  | notFound
  | cycle
  | depth
deriving Repr, DecidableEq

/-- The creation payload of `SQLiteStorage.create_category`, with the
same defaults as `category_data.get(...)` in the Python code. -/
structure CategoryData where
  name : String
  color : String := "#6B7280"
  description : String := ""
  parent_id : Option String := none
deriving Repr

/-- `SQLiteStorage.create_category`.  `freshId` stands for
`str(uuid.uuid4())` and `now` for `datetime.now()`. -/
def create_category (s : Store) (d : CategoryData) (freshId : String) (now : Nat) :
    Except StoreErr (Store × Category) :=
  let level : Nat :=
    if strTruthy d.parent_id then
      match s.categories.find? (fun c => decide (some c.id = d.parent_id)) with
      | none => 1
      | some p => p.level + 1
    else 1
  if 5 < level then Except.error StoreErr.depth
  else
    let newCat : Category :=
      { id := freshId, name := d.name, color := d.color, description := d.description,
        parent_id := d.parent_id, level := level, path := "",
        created_at := now, updated_at := now }
    let cats := updateCategoryPaths (s.categories ++ [newCat])
    match cats.find? (fun c => decide (c.id = freshId)) with
    | none => Except.error StoreErr.notFound
    | some created => Except.ok ({ s with categories := cats }, created)

/-- The update payload of `SQLiteStorage.update_category` as the request
layer builds it (`app.py` `update_category` route): the four caller
mutable fields, each key either absent or present, the present
`parent_id` key carrying a nullable value. -/
structure CategoryUpdate where
  name : Option String := none
  color : Option String := none
  description : Option String := none
  parent_id : Option (Option String) := none
deriving Repr

/-- The `UPDATE categories SET ... WHERE id = ?` row rewrite of
`update_category`: the whitelisted fields present in `update_data`
(plus the internally computed `level`, when set) and `updated_at`. -/
def applyCategoryUpdate (u : CategoryUpdate) (lvl : Option Nat) (now : Nat)
    (c : Category) : Category :=
  { c with
    name := u.name.getD c.name,
    color := u.color.getD c.color,
    description := u.description.getD c.description,
    parent_id := (match u.parent_id with | none => c.parent_id | some v => v),
    level := lvl.getD c.level,
    updated_at := now }

/-- The `if "parent_id" in update_data:` block of
`SQLiteStorage.update_category`: the cycle check, the depth check and
the computation of the new `level` (set only when a truthy new parent
resolves, or forced to 1 when the new parent is null / falsy). -/
def categoryLevelStep (s : Store) (cid : String) (pv : Option (Option String)) :
    Except StoreErr (Option Nat) :=
  match pv with
  | none => Except.ok none
  | some v =>
    if strTruthy v then
      let pid := v.getD ""
      if would_create_cycle s cid pid then Except.error StoreErr.cycle
      else
        match s.categories.find? (fun c => decide (c.id = pid)) with
        | none => Except.ok none
        | some p =>
          if 5 < p.level + 1 then Except.error StoreErr.depth
          else Except.ok (some (p.level + 1))
    else Except.ok (some 1)

/-- `SQLiteStorage.update_category`. -/
def update_category (s : Store) (cid : String) (u : CategoryUpdate) (now : Nat) :
    Except StoreErr (Store × Category) :=
  match s.categories.find? (fun c => decide (c.id = cid)) with
  | none => Except.error StoreErr.notFound
  | some cat =>
    let old_name := cat.name
    let old_path := cat.path
    match categoryLevelStep s cid u.parent_id with
    | Except.error e => Except.error e
    | Except.ok lvl =>
      let hasFields : Bool :=
        u.name.isSome || u.color.isSome || u.description.isSome ||
          u.parent_id.isSome || lvl.isSome
      let cats1 :=
        if hasFields then
          s.categories.map (fun c => if c.id = cid then applyCategoryUpdate u lvl now c else c)
        else s.categories
      let cats2 := updateCategoryPaths cats1
      match cats2.find? (fun c => decide (c.id = cid)) with
      | none => Except.error StoreErr.notFound
      | some updated =>
        let new_path := updated.path
        let prompts' :=
          if old_path ≠ new_path then
            s.prompts.map (fun p =>
              if p.category_id = some cid ∨ p.category_name = old_name then
                { p with category_name := updated.name
                         category_path := new_path
                         updated_at := now }
              else p)
          else s.prompts
        Except.ok ({ s with categories := cats2, prompts := prompts' }, updated)

theorem mem_id_unique {cats : List Category} (hnd : (cats.map (fun c => c.id)).Nodup)
    {c c' : Category} (hc : c ∈ cats) (hc' : c' ∈ cats) (h : c.id = c'.id) : c = c' :=
  List.inj_on_of_nodup_map hnd hc hc' h

theorem find_id_of_mem {cats : List Category} (hnd : (cats.map (fun c => c.id)).Nodup)
    {c : Category} (hc : c ∈ cats) :
    cats.find? (fun x => decide (x.id = c.id)) = some c := by
  induction cats with
  | nil => cases hc
  | cons a l ih =>
    rw [List.map_cons] at hnd
    have hnd' := List.nodup_cons.mp hnd
    rcases List.mem_cons.mp hc with h | h
    · subst h
      exact List.find?_cons_of_pos _ (by simp)
    · by_cases ha : a.id = c.id
      · refine absurd ?_ hnd'.1
        rw [ha]
        exact List.mem_map_of_mem (fun x => x.id) h
      · rw [List.find?_cons_of_neg _ (by simpa using ha)]
        exact ih hnd'.2 h

theorem find_id_some {cats : List Category} {cid : String} {c : Category}
    (h : cats.find? (fun x => decide (x.id = cid)) = some c) : c ∈ cats ∧ c.id = cid := by
  refine ⟨List.mem_of_find?_eq_some h, ?_⟩
  have := List.find?_some h
  simpa using this

theorem childIds_mem {cats : List Category} {pid k : String} :
    k ∈ childIds cats pid ↔ ∃ c ∈ cats, c.parent_id = some pid ∧ c.id = k := by
  simp [childIds, List.mem_filter]
  constructor
  · rintro ⟨c, ⟨hc, hp⟩, rfl⟩; exact ⟨c, hc, hp, rfl⟩
  · rintro ⟨c, hc, hp, rfl⟩; exact ⟨c, ⟨hc, hp⟩, rfl⟩

theorem descend_sound :
    ∀ (n : Nat) (cats : List Category) (root k : String),
      k ∈ descend n cats root → CatDesc cats root k := by
  intro n
  induction n with
  | zero => intro cats root k h; simp [descend] at h
  | succ m ih =>
    intro cats root k h
    simp only [descend] at h
    rcases List.mem_flatMap.mp h with ⟨j, hj, hk⟩
    obtain ⟨c, hc, hp, hcid⟩ := childIds_mem.mp hj
    rcases List.mem_cons.mp hk with rfl | hk2
    · exact hcid ▸ CatDesc.base root c hc hp
    · exact CatDesc.tail root c k hc hp (hcid ▸ ih cats j k hk2)

theorem catDesc_mem {cats : List Category} {a b : String} (h : CatDesc cats a b) :
    ∃ c ∈ cats, c.id = b := by
  induction h with
  | base _ c hc _ => exact ⟨c, hc, rfl⟩
  | tail _ _ _ _ _ _ ih => exact ih

theorem catDesc_extend_down {cats : List Category} {root j : String}
    (h : CatDesc cats root j) :
    ∀ {c : Category}, c ∈ cats → c.parent_id = some j → CatDesc cats root c.id := by
  induction h with
  | base rt d hd hpar =>
    intro c hc hp
    exact CatDesc.tail rt d c.id hd hpar (CatDesc.base d.id c hc hp)
  | tail rt d k hd hpar hsub ih =>
    intro c hc hp
    exact CatDesc.tail rt d c.id hd hpar (ih hc hp)

theorem catDesc_rank_lt {cats : List Category} {r : String → Nat}
    (hr : ∀ c ∈ cats, ∀ p ∈ cats, c.parent_id = some p.id → r p.id < r c.id)
    {a b : String} (h : CatDesc cats a b) (ha : ∃ p ∈ cats, p.id = a) : r a < r b := by
  induction h with
  | base rt c hc hp =>
    obtain ⟨p, hpm, hpid⟩ := ha
    have := hr c hc p hpm (by rw [hpid]; exact hp)
    rwa [hpid] at this
  | tail rt c k hc hp hsub ih =>
    obtain ⟨p, hpm, hpid⟩ := ha
    have h1 : r rt < r c.id := by
      have := hr c hc p hpm (by rw [hpid]; exact hp)
      rwa [hpid] at this
    exact h1.trans (ih ⟨c, hc, rfl⟩)

theorem catDesc_irrefl {cats : List Category} {r : String → Nat}
    (hr : ∀ c ∈ cats, ∀ p ∈ cats, c.parent_id = some p.id → r p.id < r c.id)
    {a : String} (h : CatDesc cats a a) : False := by
  obtain ⟨c, hc, hcid⟩ := catDesc_mem h
  exact absurd (catDesc_rank_lt hr h ⟨c, hc, hcid⟩) (lt_irrefl _)

theorem descend_complete {cats : List Category} {r : String → Nat}
    (hr : ∀ c ∈ cats, ∀ p ∈ cats, c.parent_id = some p.id → r p.id < r c.id)
    {root k : String} (h : CatDesc cats root k) (hroot : ∃ p ∈ cats, p.id = root) :
    ∀ n, r k ≤ r root + n → k ∈ descend n cats root := by
  induction h with
  | base rt c hc hp =>
    intro n hn
    obtain ⟨p, hpm, hpid⟩ := hroot
    have hlt : r rt < r c.id := by
      have := hr c hc p hpm (by rw [hpid]; exact hp)
      rwa [hpid] at this
    obtain ⟨m, rfl⟩ : ∃ m, n = m + 1 := ⟨n - 1, by omega⟩
    simp only [descend]
    exact List.mem_flatMap.mpr ⟨c.id, childIds_mem.mpr ⟨c, hc, hp, rfl⟩,
      List.mem_cons_self _ _⟩
  | tail rt c k hc hp hsub ih =>
    intro n hn
    obtain ⟨p, hpm, hpid⟩ := hroot
    have h1 : r rt < r c.id := by
      have := hr c hc p hpm (by rw [hpid]; exact hp)
      rwa [hpid] at this
    have h2 : r c.id < r k := catDesc_rank_lt hr hsub ⟨c, hc, rfl⟩
    obtain ⟨m, rfl⟩ : ∃ m, n = m + 1 := ⟨n - 1, by omega⟩
    simp only [descend]
    exact List.mem_flatMap.mpr ⟨c.id, childIds_mem.mpr ⟨c, hc, hp, rfl⟩,
      List.mem_cons_of_mem _ (ih ⟨c, hc, rfl⟩ m (by omega))⟩

theorem catDesc_parent_cases {cats : List Category}
    (hnd : (cats.map (fun c => c.id)).Nodup) {root k : String}
    (h : CatDesc cats root k) :
    ∀ {c : Category}, c ∈ cats → c.id = k → ∀ {q : String},
      c.parent_id = some q → q = root ∨ CatDesc cats root q := by
  induction h with
  | base rt d hd hp =>
    intro c hc hck q hq
    have : c = d := mem_id_unique hnd hc hd hck
    subst this
    left
    rw [hq] at hp
    exact (Option.some.injEq _ _ ▸ hp : q = rt)
  | tail rt d k hd hp hsub ih =>
    intro c hc hck q hq
    rcases ih hc hck hq with rfl | hdq
    · exact Or.inr (CatDesc.base rt d hd hp)
    · exact Or.inr (CatDesc.tail rt d q hd hp hdq)

/-- With table-size fuel, `descend` enumerates exactly the strict
descendants, provided the root id resolves and the table is acyclic. -/
theorem descend_iff_catDesc {cats : List Category} (h : CatWF cats)
    {root k : String} (hroot : ∃ p ∈ cats, p.id = root) :
    k ∈ descend cats.length cats root ↔ CatDesc cats root k := by
  obtain ⟨r, hr, hb⟩ := h.acyclic
  constructor
  · exact descend_sound _ _ _ _
  · intro hd
    obtain ⟨c, hc, hcid⟩ := catDesc_mem hd
    refine descend_complete hr hd hroot cats.length ?_
    have := hb c hc
    rw [hcid] at this
    omega

theorem buildCategoryPath_of_find_none {cats : List Category} {cid : String}
    (h : cats.find? (fun x => decide (x.id = cid)) = none) :
    ∀ fuel, buildCategoryPath fuel cid cats = "" := by
  intro fuel
  cases fuel with
  | zero => rfl
  | succ m => simp [buildCategoryPath, h]

theorem buildCategoryPath_succ_none {cats : List Category} {cid : String} {c : Category}
    (hfind : cats.find? (fun x => decide (x.id = cid)) = some c)
    (hpar : c.parent_id = none) (fuel : Nat) :
    buildCategoryPath (fuel + 1) cid cats = c.name := by
  simp only [buildCategoryPath, hfind]
  rw [hpar]

theorem buildCategoryPath_succ_some {cats : List Category} {cid pid : String} {c : Category}
    (hfind : cats.find? (fun x => decide (x.id = cid)) = some c)
    (hpar : c.parent_id = some pid) (fuel : Nat) :
    buildCategoryPath (fuel + 1) cid cats =
      (if buildCategoryPath fuel pid cats = "" then c.name
       else buildCategoryPath fuel pid cats ++ "/" ++ c.name) := by
  simp only [buildCategoryPath, hfind]
  rw [hpar]

theorem buildCategoryPath_fuel_eq {cats : List Category} {r : String → Nat}
    (hnd : (cats.map (fun c => c.id)).Nodup)
    (hr : ∀ c ∈ cats, ∀ p ∈ cats, c.parent_id = some p.id → r p.id < r c.id) :
    ∀ (k : Nat), ∀ c ∈ cats, r c.id < k → ∀ m n, r c.id < m → r c.id < n →
      buildCategoryPath m c.id cats = buildCategoryPath n c.id cats := by
  intro k
  induction k with
  | zero => intro c _ hk; omega
  | succ k ih =>
    intro c hc hk m n hm hn
    obtain ⟨m', rfl⟩ : ∃ m', m = m' + 1 := ⟨m - 1, by omega⟩
    obtain ⟨n', rfl⟩ : ∃ n', n = n' + 1 := ⟨n - 1, by omega⟩
    have hfind : cats.find? (fun x => decide (x.id = c.id)) = some c := find_id_of_mem hnd hc
    cases hpar : c.parent_id with
    | none => rw [buildCategoryPath_succ_none hfind hpar, buildCategoryPath_succ_none hfind hpar]
    | some pid =>
      rw [buildCategoryPath_succ_some hfind hpar, buildCategoryPath_succ_some hfind hpar]
      cases hpfind : cats.find? (fun x => decide (x.id = pid)) with
      | none =>
        rw [buildCategoryPath_of_find_none hpfind m', buildCategoryPath_of_find_none hpfind n']
      | some p =>
        obtain ⟨hpmem, hpid⟩ := find_id_some hpfind
        have hlt : r p.id < r c.id := hr c hc p hpmem (by rw [hpar, hpid])
        have heq : buildCategoryPath m' pid cats = buildCategoryPath n' pid cats := by
          rw [← hpid]
          exact ih p hpmem (by omega) m' n' (by omega) (by omega)
        rw [heq]

theorem buildCategoryPath_ne_empty {cats : List Category} {cid : String} {c : Category}
    (hfind : cats.find? (fun x => decide (x.id = cid)) = some c) (hn : c.name ≠ "")
    (fuel : Nat) : buildCategoryPath (fuel + 1) cid cats ≠ "" := by
  cases hpar : c.parent_id with
  | none => rw [buildCategoryPath_succ_none hfind hpar]; exact hn
  | some pid =>
    rw [buildCategoryPath_succ_some hfind hpar]
    by_cases hpp : buildCategoryPath fuel pid cats = ""
    · simpa [hpp] using hn
    · rw [if_neg hpp]
      intro hcontra
      have := congrArg String.data hcontra
      simp [String.data_append] at this

/-- After `_update_category_paths`, the materialized-path invariant
holds for the entire forest. -/
theorem pathInv_updateCategoryPaths {cats : List Category} (h : CatWF cats) :
    PathInv (updateCategoryPaths cats) := by
  obtain ⟨r, hr, hb⟩ := h.acyclic
  intro c' hc'
  obtain ⟨c, hc, rfl⟩ := List.mem_map.mp hc'
  have hfind : cats.find? (fun x => decide (x.id = c.id)) = some c :=
    find_id_of_mem h.nodup_ids hc
  have hlen : ∃ m, cats.length = m + 1 :=
    ⟨cats.length - 1, by have := List.length_pos.mpr (List.ne_nil_of_mem hc); omega⟩
  obtain ⟨m, hm⟩ := hlen
  constructor
  · intro hroot
    show buildCategoryPath cats.length c.id cats = c.name
    rw [hm, buildCategoryPath_succ_none hfind hroot]
  · intro pid p' hpar hp' hp'id
    obtain ⟨p, hp, hpeq⟩ := List.mem_map.mp hp'
    have hpid : p.id = pid := by rw [← hp'id, ← hpeq]
    have hpfind : cats.find? (fun x => decide (x.id = pid)) = some p := by
      rw [← hpid]; exact find_id_of_mem h.nodup_ids hp
    have hlt : r p.id < r c.id := hr c hc p hp (by rw [hpar, hpid])
    have hbc : r c.id < cats.length := hb c hc
    show buildCategoryPath cats.length c.id cats =
      p'.path ++ "/" ++ ({ c with path := buildCategoryPath cats.length c.id cats } : Category).name
    have hppath : p'.path = buildCategoryPath cats.length p.id cats := by
      rw [← hpeq]
    have hm1 : ∃ m', m = m' + 1 := by
      rcases Nat.eq_zero_or_pos m with hz | hpos
      · exfalso; omega
      · exact ⟨m - 1, by omega⟩
    obtain ⟨m', rfl⟩ := hm1
    have hstable : buildCategoryPath (m' + 1) pid cats =
        buildCategoryPath (m' + 1 + 1) pid cats := by
      rw [← hpid]
      exact buildCategoryPath_fuel_eq h.nodup_ids hr (r p.id + 1) p hp (by omega)
        (m' + 1) (m' + 1 + 1) (by omega) (by omega)
    have hne : buildCategoryPath (m' + 1) pid cats ≠ "" :=
      buildCategoryPath_ne_empty hpfind (h.names_ne p hp) m'
    rw [hm, buildCategoryPath_succ_some hfind hpar, if_neg hne, hppath, hm, ← hpid,
      hpid, ← hstable]

/-- `updateCategoryPaths` rewrites only the `path` column; well-formedness
(a statement about ids, names and the parent relation) transfers back
from the rewritten table to its source. -/
theorem catWF_of_updateCategoryPaths {cats : List Category}
    (h : CatWF (updateCategoryPaths cats)) : CatWF cats := by
  have hids : (updateCategoryPaths cats).map (fun c => c.id) = cats.map (fun c => c.id) := by
    simp [updateCategoryPaths, List.map_map]
  refine ⟨?_, ?_, ?_, ?_⟩
  · rw [← hids]; exact h.nodup_ids
  · intro c hc
    have := h.ids_ne _ (List.mem_map_of_mem _ hc)
    simpa [updateCategoryPaths] using this
  · intro c hc
    have := h.names_ne _ (List.mem_map_of_mem _ hc)
    simpa [updateCategoryPaths] using this
  · obtain ⟨r, hr, hb⟩ := h.acyclic
    refine ⟨r, ?_, ?_⟩
    · intro c hc p hp hpar
      have := hr _ (List.mem_map_of_mem _ hc) _ (List.mem_map_of_mem _ hp)
        (by simpa [updateCategoryPaths] using hpar)
      simpa [updateCategoryPaths] using this
    · intro c hc
      have := hb _ (List.mem_map_of_mem _ hc)
      simpa [updateCategoryPaths] using this

theorem strTruthy_true_iff {v : Option String} :
    strTruthy v = true ↔ ∃ x, v = some x ∧ x ≠ "" := by
  cases v with
  | none => simp [strTruthy]
  | some x => simp [strTruthy]

theorem categoryLevelStep_ok_cases {s : Store} {cid : String} {pv : Option (Option String)}
    {lvl : Option Nat} (h : categoryLevelStep s cid pv = Except.ok lvl) :
    (pv = none ∧ lvl = none) ∨
    (∃ v, pv = some v ∧ strTruthy v = false ∧ lvl = some 1) ∨
    (∃ pid, pv = some (some pid) ∧ pid ≠ "" ∧
      would_create_cycle s cid pid = false ∧
      ((s.categories.find? (fun c => decide (c.id = pid)) = none ∧ lvl = none) ∨
       (∃ p, s.categories.find? (fun c => decide (c.id = pid)) = some p ∧
         p.level + 1 ≤ 5 ∧ lvl = some (p.level + 1)))) := by
  cases pv with
  | none =>
    left
    simp only [categoryLevelStep] at h
    exact ⟨rfl, by cases h; rfl⟩
  | some v =>
    by_cases ht : strTruthy v = true
    · right; right
      obtain ⟨pid, rfl, hpne⟩ := strTruthy_true_iff.mp ht
      refine ⟨pid, rfl, hpne, ?_⟩
      simp only [categoryLevelStep, ht, if_true] at h
      have hgd : (some pid).getD "" = pid := rfl
      rw [hgd] at h
      by_cases hcyc : would_create_cycle s cid pid = true
      · rw [hcyc] at h; simp at h
      · rw [Bool.not_eq_true] at hcyc
        rw [hcyc] at h
        simp only [Bool.false_eq_true, if_false] at h
        refine ⟨hcyc, ?_⟩
        cases hpf : s.categories.find? (fun c => decide (c.id = pid)) with
        | none =>
          rw [hpf] at h
          exact Or.inl ⟨rfl, by cases h; rfl⟩
        | some p =>
          rw [hpf] at h
          have h' : (if 5 < p.level + 1 then (Except.error StoreErr.depth : Except StoreErr (Option Nat))
              else Except.ok (some (p.level + 1))) = Except.ok lvl := h
          by_cases hd : 5 < p.level + 1
          · rw [if_pos hd] at h'; simp at h'
          · rw [if_neg hd] at h'
            exact Or.inr ⟨p, rfl, by omega, by cases h'; rfl⟩
    · right; left
      rw [Bool.not_eq_true] at ht
      refine ⟨v, rfl, ht, ?_⟩
      simp only [categoryLevelStep, ht] at h
      simp only [Bool.false_eq_true, if_false] at h
      cases h; rfl

/-- Success shape of `update_category`: the found row, the computed
`lvl`, the rewritten table, and the returned row. -/
theorem update_category_ok_cases {s : Store} {cid : String} {u : CategoryUpdate} {now : Nat}
    {s' : Store} {c' : Category}
    (h : update_category s cid u now = Except.ok (s', c')) :
    ∃ cat lvl,
      s.categories.find? (fun c => decide (c.id = cid)) = some cat ∧
      categoryLevelStep s cid u.parent_id = Except.ok lvl ∧
      s'.categories = updateCategoryPaths
        (if (u.name.isSome || u.color.isSome || u.description.isSome ||
             u.parent_id.isSome || lvl.isSome) = true then
           s.categories.map (fun c => if c.id = cid then applyCategoryUpdate u lvl now c else c)
         else s.categories) ∧
      s'.categories.find? (fun c => decide (c.id = cid)) = some c' := by
  unfold update_category at h
  cases hfind : s.categories.find? (fun c => decide (c.id = cid)) with
  | none => rw [hfind] at h; simp at h
  | some cat =>
    rw [hfind] at h
    cases hstep : categoryLevelStep s cid u.parent_id with
    | error e => rw [hstep] at h; simp at h
    | ok lvl =>
      rw [hstep] at h
      simp only at h
      refine ⟨cat, lvl, rfl, rfl, ?_⟩
      cases hfind2 : (updateCategoryPaths
          (if (u.name.isSome || u.color.isSome || u.description.isSome ||
               u.parent_id.isSome || lvl.isSome) = true then
             s.categories.map (fun c => if c.id = cid then applyCategoryUpdate u lvl now c else c)
           else s.categories)).find? (fun c => decide (c.id = cid)) with
      | none => rw [hfind2] at h; simp at h
      | some updated =>
        rw [hfind2] at h
        simp only at h
        cases h
        exact ⟨rfl, hfind2⟩

/-- Success shape of `create_category`: the inserted row and the
rewritten table. -/
theorem create_category_ok_shape {s : Store} {d : CategoryData} {freshId : String}
    {now : Nat} {s' : Store} {c' : Category}
    (h : create_category s d freshId now = Except.ok (s', c')) :
    ∃ level : Nat,
      (5 < level → False) ∧
      ((strTruthy d.parent_id = false ∧ level = 1) ∨
       (strTruthy d.parent_id = true ∧
         ((s.categories.find? (fun c => decide (some c.id = d.parent_id)) = none ∧ level = 1) ∨
          (∃ p, s.categories.find? (fun c => decide (some c.id = d.parent_id)) = some p ∧
            level = p.level + 1)))) ∧
      s'.categories = updateCategoryPaths (s.categories ++
        [{ id := freshId, name := d.name, color := d.color, description := d.description,
           parent_id := d.parent_id, level := level, path := "",
           created_at := now, updated_at := now }]) ∧
      s'.categories.find? (fun c => decide (c.id = freshId)) = some c' := by
  unfold create_category at h
  by_cases ht : strTruthy d.parent_id = true
  · rw [ht] at h
    simp only [if_true] at h
    cases hpf : s.categories.find? (fun c => decide (some c.id = d.parent_id)) with
    | none =>
      rw [hpf] at h
      simp only [show ¬ (5 < 1) by omega, if_false] at h
      refine ⟨1, by omega, Or.inr ⟨ht, Or.inl ⟨rfl, rfl⟩⟩, ?_⟩
      cases hfind2 : (updateCategoryPaths (s.categories ++
          [{ id := freshId, name := d.name, color := d.color, description := d.description,
             parent_id := d.parent_id, level := 1, path := "",
             created_at := now, updated_at := now }])).find?
            (fun c => decide (c.id = freshId)) with
      | none => rw [hfind2] at h; simp at h
      | some created =>
        rw [hfind2] at h
        cases h
        exact ⟨rfl, hfind2⟩
    | some p =>
      rw [hpf] at h
      by_cases hd : 5 < p.level + 1
      · rw [if_pos hd] at h; simp at h
      · rw [if_neg hd] at h
        refine ⟨p.level + 1, fun hc => hd hc, Or.inr ⟨ht, Or.inr ⟨p, rfl, rfl⟩⟩, ?_⟩
        cases hfind2 : (updateCategoryPaths (s.categories ++
            [{ id := freshId, name := d.name, color := d.color, description := d.description,
               parent_id := d.parent_id, level := p.level + 1, path := "",
               created_at := now, updated_at := now }])).find?
              (fun c => decide (c.id = freshId)) with
        | none => rw [hfind2] at h; simp at h
        | some created =>
          rw [hfind2] at h
          cases h
          exact ⟨rfl, hfind2⟩
  · rw [Bool.not_eq_true] at ht
    rw [ht] at h
    simp only [Bool.false_eq_true, if_false] at h
    simp only [show ¬ (5 < 1) by omega, if_false] at h
    refine ⟨1, by omega, Or.inl ⟨ht, rfl⟩, ?_⟩
    cases hfind2 : (updateCategoryPaths (s.categories ++
        [{ id := freshId, name := d.name, color := d.color, description := d.description,
           parent_id := d.parent_id, level := 1, path := "",
           created_at := now, updated_at := now }])).find?
          (fun c => decide (c.id = freshId)) with
    | none => rw [hfind2] at h; simp at h
    | some created =>
      rw [hfind2] at h
      cases h
      exact ⟨rfl, hfind2⟩

/-- C2.  After a successful `create_category` (insert + global path
recompute) or `update_category` (rename / re-parent + global path
recompute), every category C in the store satisfies
`C.path = parent(C).path ++ "/" ++ C.name` when its parent resolves and
`C.path = C.name` when it is a root — for every store whose resulting
category table satisfies the data-model invariants of the specification
(unique non-empty ids, non-empty names, acyclic parent relation). -/
theorem category_path_invariant :
    (∀ (s : Store) (d : CategoryData) (freshId : String) (now : Nat) (s' : Store)
       (c' : Category), create_category s d freshId now = Except.ok (s', c') →
       CatWF s'.categories → PathInv s'.categories) ∧
    (∀ (s : Store) (cid : String) (u : CategoryUpdate) (now : Nat) (s' : Store)
       (c' : Category), update_category s cid u now = Except.ok (s', c') →
       CatWF s'.categories → PathInv s'.categories) := by
  constructor
  · intro s d fid now s' c' h hwf
    obtain ⟨level, _, _, hcats, _⟩ := create_category_ok_shape h
    rw [hcats] at hwf ⊢
    exact pathInv_updateCategoryPaths (catWF_of_updateCategoryPaths hwf)
  · intro s cid u now s' c' h hwf
    obtain ⟨cat, lvl, _, _, hcats, _⟩ := update_category_ok_cases h
    rw [hcats] at hwf ⊢
    exact pathInv_updateCategoryPaths (catWF_of_updateCategoryPaths hwf)

def c2CatA : Category :=
  { id := "a", name := "Programming", color := "#111111", description := "",
    parent_id := none, level := 1, path := "Programming", created_at := 0, updated_at := 0 }

def c2CatB : Category :=
  { id := "b", name := "Python", color := "#222222", description := "",
    parent_id := some "a", level := 2, path := "Programming/Python",
    created_at := 0, updated_at := 0 }

def c2Store : Store :=
  { prompts := [], prompt_versions := [], categories := [c2CatA, c2CatB],
    tags := [], prompt_tags := [] }

def c2StoreOut : Store :=
  { prompts := [], prompt_versions := [],
    categories :=
      [{ id := "a", name := "Dev", color := "#111111", description := "",
         parent_id := none, level := 1, path := "Dev", created_at := 0, updated_at := 7 },
       { id := "b", name := "Python", color := "#222222", description := "",
         parent_id := some "a", level := 2, path := "Dev/Python",
         created_at := 0, updated_at := 0 }],
    tags := [], prompt_tags := [] }

def c2CatOut : Category :=
  { id := "a", name := "Dev", color := "#111111", description := "",
    parent_id := none, level := 1, path := "Dev", created_at := 0, updated_at := 7 }

/-- C2 witness: renaming the root "Programming" to "Dev" recomputes the
child's path to "Dev/Python", and the path invariant holds. -/
theorem category_path_invariant_witness : PathInv c2StoreOut.categories :=
  category_path_invariant.2 c2Store "a" { name := some "Dev" } 7 c2StoreOut c2CatOut rfl
    ⟨by decide, by decide, by decide,
     ⟨fun x => if x = "b" then 1 else 0, by decide, by decide⟩⟩

theorem rank_map_pres {cats : List Category} {f : Category → Category} {r : String → Nat}
    (hid : ∀ c, (f c).id = c.id)
    (hedge : ∀ c ∈ cats, ∀ p ∈ cats, (f c).parent_id = some p.id → r p.id < r c.id) :
    ∀ c ∈ cats.map f, ∀ p ∈ cats.map f, c.parent_id = some p.id → r p.id < r c.id := by
  intro c hc p hp hpar
  obtain ⟨c0, hc0, rfl⟩ := List.mem_map.mp hc
  obtain ⟨p0, hp0, rfl⟩ := List.mem_map.mp hp
  rw [hid c0, hid p0]
  rw [hid p0] at hpar
  exact hedge c0 hc0 p0 hp0 hpar

theorem rank_updateCategoryPaths {cats : List Category} {r : String → Nat}
    (h : ∀ c ∈ cats, ∀ p ∈ cats, c.parent_id = some p.id → r p.id < r c.id) :
    ∀ c ∈ updateCategoryPaths cats, ∀ p ∈ updateCategoryPaths cats,
      c.parent_id = some p.id → r p.id < r c.id := by
  unfold updateCategoryPaths
  exact rank_map_pres (fun c => rfl) h

theorem contains_iff_mem {l : List String} {x : String} : l.contains x = true ↔ x ∈ l :=
  List.elem_iff

theorem would_create_cycle_iff {s : Store} {cid pid : String} {cat : Category}
    (hwf : CatWF s.categories)
    (hfind : s.categories.find? (fun c => decide (c.id = cid)) = some cat) :
    would_create_cycle s cid pid = true ↔ (pid = cid ∨ CatDesc s.categories cid pid) := by
  obtain ⟨hmem, hcid⟩ := find_id_some hfind
  have hroot : ∃ p ∈ s.categories, p.id = cid := ⟨cat, hmem, hcid⟩
  unfold would_create_cycle
  rw [Bool.or_eq_true, decide_eq_true_eq, contains_iff_mem]
  constructor
  · rintro (rfl | hin)
    · exact Or.inl rfl
    · exact Or.inr ((descend_iff_catDesc hwf hroot).mp hin)
  · rintro (rfl | hd)
    · exact Or.inl rfl
    · exact Or.inr ((descend_iff_catDesc hwf hroot).mpr hd)

/-- Rank function used to re-certify acyclicity after a re-parent: the
moved category `cid` and its old subtree `D` are lifted above the rank
of the new parent. -/
def shiftRank (r : String → Nat) (D : List String) (cid : String) (base : Nat)
    (y : String) : Nat :=
  if y = cid ∨ y ∈ D then r y + base + 1 else r y

/-- C3.  (i) The cycle test of `_would_create_cycle` is exactly the
symmetric descendant-enumeration check `pid = cid or pid in
descendants(cid)`; (ii) `update_category` re-parenting an existing
category onto itself or onto any of its strict descendants fails with
the cycle error; (iii) after any successful `update_category` on a
well-formed store, no category is its own ancestor (the parent relation
stays acyclic). -/
theorem update_category_cycle_guard :
    (∀ (s : Store) (cid pid : String) (cat : Category), CatWF s.categories →
      s.categories.find? (fun c => decide (c.id = cid)) = some cat →
      (would_create_cycle s cid pid = true ↔ (pid = cid ∨ CatDesc s.categories cid pid))) ∧
    (∀ (s : Store) (cid : String) (u : CategoryUpdate) (now : Nat) (cat : Category)
       (pid : String), CatWF s.categories →
      s.categories.find? (fun c => decide (c.id = cid)) = some cat →
      u.parent_id = some (some pid) →
      (pid = cid ∨ CatDesc s.categories cid pid) →
      update_category s cid u now = Except.error StoreErr.cycle) ∧
    (∀ (s : Store) (cid : String) (u : CategoryUpdate) (now : Nat) (s' : Store)
       (c' : Category), CatWF s.categories →
      update_category s cid u now = Except.ok (s', c') →
      ∀ x, ¬ CatDesc s'.categories x x) := by
  refine ⟨fun s cid pid cat hwf hfind => would_create_cycle_iff hwf hfind, ?_, ?_⟩
  · intro s cid u now cat pid hwf hfind hup hbad
    obtain ⟨hmem, hcid⟩ := find_id_some hfind
    have hcidne : cid ≠ "" := by rw [← hcid]; exact hwf.ids_ne cat hmem
    have hpidne : pid ≠ "" := by
      rcases hbad with rfl | hd
      · exact hcidne
      · obtain ⟨c, hc, hcd⟩ := catDesc_mem hd
        rw [← hcd]
        exact hwf.ids_ne c hc
    have hcyc : would_create_cycle s cid pid = true :=
      (would_create_cycle_iff hwf hfind).mpr hbad
    have hstep : categoryLevelStep s cid u.parent_id = Except.error StoreErr.cycle := by
      rw [hup]
      have ht : strTruthy (some pid) = true := by simp [strTruthy, hpidne]
      simp only [categoryLevelStep, ht, if_true]
      have hgd : (some pid).getD "" = pid := rfl
      rw [hgd, hcyc]
      simp
    simp only [update_category, hfind, hstep]
  · intro s cid u now s' c' hwf h x hxx
    obtain ⟨cat, lvl, hfind, hstep, hcats, _⟩ := update_category_ok_cases h
    obtain ⟨hmemc, hcidc⟩ := find_id_some hfind
    obtain ⟨r, hr, hb⟩ := hwf.acyclic
    rw [hcats] at hxx
    by_cases hf : (u.name.isSome || u.color.isSome || u.description.isSome ||
        u.parent_id.isSome || lvl.isSome) = true
    · rw [if_pos hf] at hxx
      have hid : ∀ c : Category,
          ((if c.id = cid then applyCategoryUpdate u lvl now c else c) : Category).id = c.id := by
        intro c
        by_cases hc : c.id = cid <;> simp [hc, applyCategoryUpdate]
      rcases categoryLevelStep_ok_cases hstep with ⟨hup, _⟩ | ⟨v, hup, hvf, _⟩ |
        ⟨pid, hup, hpne, hncyc, _⟩
      · -- parent key absent: the parent relation is untouched
        have hedge : ∀ c0 ∈ s.categories, ∀ p0 ∈ s.categories,
            ((if c0.id = cid then applyCategoryUpdate u lvl now c0 else c0) : Category).parent_id
              = some p0.id → r p0.id < r c0.id := by
          intro c0 hc0 p0 hp0 hpar
          by_cases hcc : c0.id = cid
          · rw [if_pos hcc] at hpar
            simp only [applyCategoryUpdate, hup] at hpar
            exact hr c0 hc0 p0 hp0 hpar
          · rw [if_neg hcc] at hpar
            exact hr c0 hc0 p0 hp0 hpar
        exact catDesc_irrefl (rank_updateCategoryPaths (rank_map_pres hid hedge)) hxx
      · -- parent set to null / empty string: the updated row has no
        -- resolving parent; every other edge is untouched
        have hedge : ∀ c0 ∈ s.categories, ∀ p0 ∈ s.categories,
            ((if c0.id = cid then applyCategoryUpdate u lvl now c0 else c0) : Category).parent_id
              = some p0.id → r p0.id < r c0.id := by
          intro c0 hc0 p0 hp0 hpar
          by_cases hcc : c0.id = cid
          · rw [if_pos hcc] at hpar
            simp only [applyCategoryUpdate, hup] at hpar
            cases v with
            | none => simp at hpar
            | some y =>
              have hy : y = "" := by
                by_contra hy
                simp [strTruthy, hy] at hvf
              have : p0.id = "" := by rw [hy] at hpar; exact (Option.some.injEq _ _ ▸ hpar).symm
              exact absurd this (hwf.ids_ne p0 hp0)
          · rw [if_neg hcc] at hpar
            exact hr c0 hc0 p0 hp0 hpar
        exact catDesc_irrefl (rank_updateCategoryPaths (rank_map_pres hid hedge)) hxx
      · -- truthy new parent that passed the cycle check: shift the rank
        -- of the moved subtree above the rank of the new parent
        have hroot : ∃ p ∈ s.categories, p.id = cid := ⟨cat, hmemc, hcidc⟩
        have hdesc_iff : ∀ y, y ∈ get_category_descendants s cid ↔
            CatDesc s.categories cid y := fun y => descend_iff_catDesc hwf hroot
        have hnot : ¬ (pid = cid ∨ pid ∈ get_category_descendants s cid) := by
          intro hcon
          have : would_create_cycle s cid pid = true := by
            unfold would_create_cycle
            rw [Bool.or_eq_true, decide_eq_true_eq, contains_iff_mem]
            rcases hcon with rfl | hin
            · exact Or.inl rfl
            · exact Or.inr hin
          rw [hncyc] at this
          simp at this
        have hedge : ∀ c0 ∈ s.categories, ∀ p0 ∈ s.categories,
            ((if c0.id = cid then applyCategoryUpdate u lvl now c0 else c0) : Category).parent_id
              = some p0.id →
            shiftRank r (get_category_descendants s cid) cid (r pid) p0.id <
            shiftRank r (get_category_descendants s cid) cid (r pid) c0.id := by
          intro c0 hc0 p0 hp0 hpar
          simp only [shiftRank]
          by_cases hcc : c0.id = cid
          · -- the moved row: its new parent pid lies outside the moved subtree
            rw [if_pos hcc] at hpar
            simp only [applyCategoryUpdate, hup] at hpar
            have hp0id : p0.id = pid := ((Option.some.injEq _ _).mp hpar).symm
            rw [hp0id, if_neg hnot, if_pos (Or.inl hcc)]
            omega
          · -- an untouched edge
            rw [if_neg hcc] at hpar
            by_cases hq : p0.id = cid ∨ p0.id ∈ get_category_descendants s cid
            · -- parent inside the moved subtree, hence the child is too
              have hcd : CatDesc s.categories cid c0.id := by
                rcases hq with hq | hq
                · exact CatDesc.base cid c0 hc0 (by rw [hpar, hq])
                · exact catDesc_extend_down ((hdesc_iff p0.id).mp hq) hc0 hpar
              have hcin : c0.id ∈ get_category_descendants s cid := (hdesc_iff c0.id).mpr hcd
              rw [if_pos hq, if_pos (Or.inr hcin)]
              have := hr c0 hc0 p0 hp0 hpar
              omega
            · -- parent outside the moved subtree, hence the child is too
              have hcnot : ¬ (c0.id = cid ∨ c0.id ∈ get_category_descendants s cid) := by
                rintro (hcc2 | hcin)
                · exact hcc hcc2
                · have hcd := (hdesc_iff c0.id).mp hcin
                  rcases catDesc_parent_cases hwf.nodup_ids hcd hc0 rfl hpar with hq2 | hq2
                  · exact hq (Or.inl hq2)
                  · exact hq (Or.inr ((hdesc_iff p0.id).mpr hq2))
              rw [if_neg hq, if_neg hcnot]
              exact hr c0 hc0 p0 hp0 hpar
        exact catDesc_irrefl (rank_updateCategoryPaths (rank_map_pres hid hedge)) hxx
    · rw [if_neg hf] at hxx
      exact catDesc_irrefl (rank_updateCategoryPaths hr) hxx

def c3CatA : Category :=
  { id := "a", name := "Root", color := "#111111", description := "",
    parent_id := none, level := 1, path := "Root", created_at := 0, updated_at := 0 }

def c3CatB : Category :=
  { id := "b", name := "Child", color := "#222222", description := "",
    parent_id := some "a", level := 2, path := "Root/Child",
    created_at := 0, updated_at := 0 }

def c3Store : Store :=
  { prompts := [], prompt_versions := [], categories := [c3CatA, c3CatB],
    tags := [], prompt_tags := [] }

/-- C3 witness: re-parenting "a" under its own child "b" fails with the
cycle error. -/
theorem update_category_cycle_guard_witness :
    update_category c3Store "a" { parent_id := some (some "b") } 3 =
      Except.error StoreErr.cycle :=
  update_category_cycle_guard.2.1 c3Store "a" { parent_id := some (some "b") } 3 c3CatA "b"
    ⟨by decide, by decide, by decide,
     ⟨fun x => if x = "b" then 1 else 0, by decide, by decide⟩⟩
    rfl rfl (Or.inr (CatDesc.base "a" c3CatB (by decide) rfl))

theorem catDesc_bottom {cats : List Category} {a k : String} (h : CatDesc cats a k) :
    ∃ c ∈ cats, c.id = k ∧ ∃ q, c.parent_id = some q := by
  induction h with
  | base rt c hc hp => exact ⟨c, hc, rfl, rt, hp⟩
  | tail _ _ _ _ _ _ ih => exact ih

theorem catDesc_sibling_not {cats : List Category}
    (hnd : (cats.map (fun c => c.id)).Nodup) {r : String → Nat}
    (hr : ∀ c ∈ cats, ∀ p ∈ cats, c.parent_id = some p.id → r p.id < r c.id)
    {root j j' : String}
    (hcj : ∃ c ∈ cats, c.id = j ∧ c.parent_id = some root)
    (hcj' : ∃ c ∈ cats, c.id = j' ∧ c.parent_id = some root) :
    ¬ CatDesc cats j' j := by
  intro hd
  obtain ⟨cj, hcjm, hcjid, hcjp⟩ := hcj
  obtain ⟨cj', hcjm', hcjid', hcjp'⟩ := hcj'
  rcases catDesc_parent_cases hnd hd hcjm hcjid hcjp with hq | hq
  · -- root = j': then the row of j' is its own parent
    refine absurd (hr cj' hcjm' cj' hcjm' ?_) (lt_irrefl _)
    rw [hcjp', hq, hcjid']
  · -- j' is a strict descendant of root while root is above j'
    have h1 : r j' < r root := catDesc_rank_lt hr hq ⟨cj', hcjm', hcjid'⟩
    obtain ⟨proot, hprootm, hprootid⟩ := catDesc_mem hq
    have h2 : r root < r j' := by
      have := hr cj' hcjm' proot hprootm (by rw [hcjp', hprootid])
      rw [hprootid] at this
      rw [hcjid'] at this
      exact this
    omega

theorem catDesc_siblings_disjoint {cats : List Category}
    (hnd : (cats.map (fun c => c.id)).Nodup) {r : String → Nat}
    (hr : ∀ c ∈ cats, ∀ p ∈ cats, c.parent_id = some p.id → r p.id < r c.id)
    {root j j' : String}
    (hcj : ∃ c ∈ cats, c.id = j ∧ c.parent_id = some root)
    (hcj' : ∃ c ∈ cats, c.id = j' ∧ c.parent_id = some root)
    (hne : j ≠ j') :
    ∀ (n : Nat) (x : String), r x < n →
      CatDesc cats j x → CatDesc cats j' x → False := by
  intro n
  induction n with
  | zero => intro x hx; omega
  | succ m ih =>
    intro x hx hdx hdx'
    obtain ⟨cx, hcxm, hcxid, q, hcxp⟩ := catDesc_bottom hdx
    rcases catDesc_parent_cases hnd hdx hcxm hcxid hcxp with hq1 | hq1 <;>
      rcases catDesc_parent_cases hnd hdx' hcxm hcxid hcxp with hq2 | hq2
    · exact hne (hq1 ▸ hq2)
    · subst hq1
      exact catDesc_sibling_not hnd hr hcj hcj' hq2
    · subst hq2
      exact catDesc_sibling_not hnd hr hcj' hcj hq1
    · obtain ⟨cq, hcqm, hcqid⟩ := catDesc_mem hq1
      have hlt : r q < r x := by
        have := hr cx hcxm cq hcqm (by rw [hcxp, hcqid])
        rw [hcqid] at this
        rw [hcxid] at this
        exact this
      exact ih q (by omega) hq1 hq2

theorem childIds_nodup {cats : List Category}
    (hnd : (cats.map (fun c => c.id)).Nodup) (pid : String) :
    (childIds cats pid).Nodup := by
  unfold childIds
  exact ((List.filter_sublist cats).map (fun c => c.id)).nodup hnd

/-- The DFS enumeration of `get_category_descendants` has no duplicates
on a well-formed table: each node is reached through its unique parent
chain. -/
theorem descend_nodup {cats : List Category} (h : CatWF cats) :
    ∀ (fuel : Nat) (root : String), (descend fuel cats root).Nodup := by
  obtain ⟨r, hr, hb⟩ := h.acyclic
  intro fuel
  induction fuel with
  | zero => intro root; simp [descend]
  | succ m ih =>
    intro root
    rw [descend, List.nodup_flatMap]
    constructor
    · intro k hk
      refine List.nodup_cons.mpr ⟨?_, ih k⟩
      intro hkk
      exact catDesc_irrefl hr (descend_sound m cats k k hkk)
    · refine List.Pairwise.imp_of_mem ?_ (childIds_nodup h.nodup_ids root)
      intro j j' hj hj' hne
      intro x hx hx'
      obtain ⟨cj, hcjm, hcjp, hcjid⟩ := childIds_mem.mp hj
      obtain ⟨cj', hcjm', hcjp', hcjid'⟩ := childIds_mem.mp hj'
      have hdj : x = j ∨ CatDesc cats j x := by
        rcases List.mem_cons.mp hx with rfl | hxd
        · exact Or.inl rfl
        · exact Or.inr (descend_sound m cats j x hxd)
      have hdj' : x = j' ∨ CatDesc cats j' x := by
        rcases List.mem_cons.mp hx' with rfl | hxd
        · exact Or.inl rfl
        · exact Or.inr (descend_sound m cats j' x hxd)
      have hcjx : ∃ c ∈ cats, c.id = j ∧ c.parent_id = some root := ⟨cj, hcjm, hcjid, hcjp⟩
      have hcjx' : ∃ c ∈ cats, c.id = j' ∧ c.parent_id = some root := ⟨cj', hcjm', hcjid', hcjp'⟩
      rcases hdj with rfl | hdj <;> rcases hdj' with hh | hdj'
      · exact hne hh
      · exact catDesc_sibling_not h.nodup_ids hr hcjx hcjx' hdj'
      · subst hh
        exact catDesc_sibling_not h.nodup_ids hr hcjx' hcjx hdj
      · exact catDesc_siblings_disjoint h.nodup_ids hr hcjx hcjx' hne (r x + 1) x
          (by omega) hdj hdj'

theorem map_id_filter (cats : List Category) (p : String → Bool) :
    (cats.filter (fun c => p c.id)).map (fun c => c.id) =
      (cats.map (fun c => c.id)).filter p := by
  induction cats with
  | nil => rfl
  | cons a l ih =>
    by_cases h : p a.id = true
    · simp [List.filter_cons, h, ih]
    · simp [List.filter_cons, h, ih]

/-- Counting the rows whose id lies in a duplicate-free list of
resolvable ids yields the length of that list. -/
theorem countP_mem_eq_length {cats : List Category}
    (hnd : (cats.map (fun c => c.id)).Nodup)
    {l : List String} (hl : l.Nodup) (hsub : ∀ x ∈ l, ∃ c ∈ cats, c.id = x) :
    cats.countP (fun c => l.contains c.id) = l.length := by
  rw [List.countP_eq_length_filter]
  have h1 : (cats.filter (fun c => l.contains c.id)).length =
      ((cats.map (fun c => c.id)).filter (fun x => l.contains x)).length := by
    rw [← map_id_filter]
    rw [List.length_map]
  rw [h1]
  have hperm : ((cats.map (fun c => c.id)).filter (fun x => l.contains x)).Perm l := by
    rw [List.perm_ext_iff_of_nodup (List.Nodup.filter _ hnd) hl]
    intro a
    rw [List.mem_filter]
    constructor
    · rintro ⟨_, ha⟩
      exact contains_iff_mem.mp ha
    · intro ha
      obtain ⟨c, hc, hcid⟩ := hsub a ha
      exact ⟨hcid ▸ List.mem_map_of_mem _ hc, contains_iff_mem.mpr ha⟩
  exact hperm.length_eq

/-- The `category_id IN (...)` row test of the prompts UPDATE inside
`force_delete_category` (SQL `NULL IN (...)` is not a match). -/
def hitsDeleted (toDelete : List String) (p : Prompt) : Bool :=
  match p.category_id with
  | none => false
  | some x => toDelete.contains x

/-- `SQLiteStorage.force_delete_category`.  Collects the category and
all its descendants, re-points the prompts whose `category_id` is among
the collected ids at the "未分类" fallback row (found by
`id = '0' OR name = '未分类'`) when that row exists, then deletes the
collected categories, returning `(deleted_categories_count,
affected_prompts_count)` from the two statements' row counts. -/
def force_delete_category (s : Store) (cid : String) (now : Nat) :
    Store × Except String (Nat × Nat) :=
  match s.categories.find? (fun c => decide (c.id = cid)) with
  | none => (s, Except.error "category does not exist")
  | some _cat =>
    let categories_to_delete := cid :: get_category_descendants s cid
    let uncategorized := s.categories.find?
      (fun c => decide (c.id = "0" ∨ c.name = "未分类"))
    let prompts' :=
      match uncategorized with
      | none => s.prompts
      | some u =>
        s.prompts.map (fun p =>
          if hitsDeleted categories_to_delete p then
            { p with category_id := some u.id
                     category_name := u.name
                     category_path := u.path
                     updated_at := now }
          else p)
    let affected :=
      match uncategorized with
      | none => 0
      | some _u => s.prompts.countP (fun p => hitsDeleted categories_to_delete p)
    let cats' := s.categories.filter
      (fun c => ! categories_to_delete.contains c.id)
    let deleted := s.categories.countP (fun c => categories_to_delete.contains c.id)
    ({ s with categories := cats', prompts := prompts' }, Except.ok (deleted, affected))

def c4Cat : Category :=
  { id := "x", name := "X", color := "#111111", description := "",
    parent_id := none, level := 1, path := "X", created_at := 0, updated_at := 0 }

def c4Fallback : Category :=
  { id := "0", name := "未分类", color := "#9CA3AF", description := "",
    parent_id := none, level := 1, path := "未分类", created_at := 0, updated_at := 0 }

/-- A legacy prompt: `category_id` is NULL and only the denormalized
`category_name` still points at the category "X". -/
def c4LegacyPrompt : Prompt :=
  { id := "p1", title := "t", content := "c", description := "", category_id := none,
    category_name := "X", category_path := "X", usage_count := 0,
    current_version := "1.0", created_at := 0, updated_at := 0 }

def c4Store : Store :=
  { prompts := [c4LegacyPrompt], prompt_versions := [],
    categories := [c4Cat, c4Fallback], tags := [], prompt_tags := [] }

/-- C4, counterexample to the claim as stated.  The prompts UPDATE of
`force_delete_category` matches only `category_id IN (...)` — there is
no `OR category_name = ?` clause — so a legacy prompt referencing the
deleted category "X" only by name keeps `category_name = "X"` and is
NOT reassigned to the fallback category, although the claim requires
every prompt that referenced a removed category "by collected id or by
the deleted category's name" to be reassigned. -/
theorem force_delete_category_counterexample :
    (force_delete_category c4Store "x" 5).1.prompts = [c4LegacyPrompt] ∧
    (force_delete_category c4Store "x" 5).2 = Except.ok (1, 0) ∧
    c4LegacyPrompt.category_name = "X" ∧
    c4Fallback.name = "未分类" ∧
    c4LegacyPrompt.category_name ≠ c4Fallback.name ∧
    (force_delete_category c4Store "x" 5).1.categories = [c4Fallback] :=
  ⟨rfl, rfl, rfl, rfl, by decide, rfl⟩

theorem hitsDeleted_iff {toDelete : List String} {p : Prompt} :
    hitsDeleted toDelete p = true ↔ ∃ x, p.category_id = some x ∧ x ∈ toDelete := by
  unfold hitsDeleted
  cases hc : p.category_id with
  | none => simp
  | some x => simp [contains_iff_mem]

/-- C4, amended.  On a well-formed store, for an existing category and
an existing fallback row: `force_delete_category` removes exactly the
category and its strict descendants, reports
`deleted_categories_count = 1 + |descendants|` (the descendant
enumeration is duplicate-free and enumerates exactly the strict
descendants), and re-points exactly the prompts whose `category_id` is
one of the removed ids at the fallback row — a prompt referencing a
removed category only through the legacy `category_name` string is NOT
reassigned. -/
theorem force_delete_category_spec (s : Store) (cid : String) (now : Nat)
    (cat fb : Category) (hwf : CatWF s.categories)
    (hfind : s.categories.find? (fun c => decide (c.id = cid)) = some cat)
    (hfb : s.categories.find? (fun c => decide (c.id = "0" ∨ c.name = "未分类")) = some fb) :
    (get_category_descendants s cid).Nodup ∧
    (∀ x, x ∈ get_category_descendants s cid ↔ CatDesc s.categories cid x) ∧
    (∃ affected, (force_delete_category s cid now).2 =
      Except.ok (1 + (get_category_descendants s cid).length, affected)) ∧
    (∀ c, c ∈ (force_delete_category s cid now).1.categories ↔
      (c ∈ s.categories ∧ ¬ (c.id = cid ∨ CatDesc s.categories cid c.id))) ∧
    (∀ p ∈ s.prompts,
      ((∃ x, p.category_id = some x ∧ (x = cid ∨ CatDesc s.categories cid x)) →
        { p with category_id := some fb.id
                 category_name := fb.name
                 category_path := fb.path
                 updated_at := now } ∈
            (force_delete_category s cid now).1.prompts) ∧
      ((¬ ∃ x, p.category_id = some x ∧ (x = cid ∨ CatDesc s.categories cid x)) →
        p ∈ (force_delete_category s cid now).1.prompts)) := by
  obtain ⟨hcatm, hcatid⟩ := find_id_some hfind
  have hroot : ∃ p ∈ s.categories, p.id = cid := ⟨cat, hcatm, hcatid⟩
  have hiff : ∀ x, x ∈ get_category_descendants s cid ↔ CatDesc s.categories cid x :=
    fun x => descend_iff_catDesc hwf hroot
  obtain ⟨r, hr, hb⟩ := hwf.acyclic
  have hnodup : (get_category_descendants s cid).Nodup :=
    descend_nodup hwf s.categories.length cid
  have hcidnotin : cid ∉ get_category_descendants s cid := by
    intro hc
    exact catDesc_irrefl hr ((hiff cid).mp hc)
  have hmemtd : ∀ x, x ∈ cid :: get_category_descendants s cid ↔
      (x = cid ∨ CatDesc s.categories cid x) := by
    intro x
    rw [List.mem_cons]
    exact or_congr Iff.rfl (hiff x)
  have hunfold : force_delete_category s cid now =
      ({ s with
          categories := (s.categories.filter
            (fun c => ! (cid :: get_category_descendants s cid).contains c.id)),
          prompts := (s.prompts.map (fun p =>
            if hitsDeleted (cid :: get_category_descendants s cid) p then
              { p with category_id := some fb.id
                       category_name := fb.name
                       category_path := fb.path
                       updated_at := now }
            else p)) },
       Except.ok
         (s.categories.countP
            (fun c => (cid :: get_category_descendants s cid).contains c.id),
          s.prompts.countP
            (fun p => hitsDeleted (cid :: get_category_descendants s cid) p))) := by
    simp only [force_delete_category, hfind, hfb]
  refine ⟨hnodup, hiff, ?_, ?_, ?_⟩
  · refine ⟨s.prompts.countP
      (fun p => hitsDeleted (cid :: get_category_descendants s cid) p), ?_⟩
    rw [hunfold]
    have hcount : s.categories.countP
        (fun c => (cid :: get_category_descendants s cid).contains c.id) =
        (cid :: get_category_descendants s cid).length := by
      refine countP_mem_eq_length hwf.nodup_ids (List.nodup_cons.mpr ⟨hcidnotin, hnodup⟩) ?_
      intro x hx
      rcases List.mem_cons.mp hx with rfl | hx
      · exact ⟨cat, hcatm, hcatid⟩
      · exact catDesc_mem ((hiff x).mp hx)
    rw [hcount]
    simp [Nat.add_comm]
  · intro c
    rw [hunfold]
    simp only [List.mem_filter]
    constructor
    · rintro ⟨hcm, hcc⟩
      refine ⟨hcm, ?_⟩
      intro hcon
      have hin : c.id ∈ cid :: get_category_descendants s cid := (hmemtd c.id).mpr hcon
      simp only [Bool.not_eq_true'] at hcc
      exact absurd (contains_iff_mem.mpr hin) (by rw [hcc]; exact Bool.false_ne_true)
    · rintro ⟨hcm, hcon⟩
      refine ⟨hcm, ?_⟩
      have hnotin : c.id ∉ cid :: get_category_descendants s cid :=
        fun hin => hcon ((hmemtd c.id).mp hin)
      have hcf : (cid :: get_category_descendants s cid).contains c.id = false := by
        rw [← Bool.not_eq_true]
        intro hc2
        exact hnotin (contains_iff_mem.mp hc2)
      rw [hcf]
      rfl
  · intro p hp
    have hhit : hitsDeleted (cid :: get_category_descendants s cid) p = true ↔
        (∃ x, p.category_id = some x ∧ (x = cid ∨ CatDesc s.categories cid x)) := by
      rw [hitsDeleted_iff]
      constructor
      · rintro ⟨x, hx1, hx2⟩
        exact ⟨x, hx1, (hmemtd x).mp hx2⟩
      · rintro ⟨x, hx1, hx2⟩
        exact ⟨x, hx1, (hmemtd x).mpr hx2⟩
    constructor
    · intro hx
      rw [hunfold]
      refine List.mem_map.mpr ⟨p, hp, ?_⟩
      have hh : hitsDeleted (cid :: get_category_descendants s cid) p = true := hhit.mpr hx
      simp [hh]
    · intro hx
      rw [hunfold]
      refine List.mem_map.mpr ⟨p, hp, ?_⟩
      have hh : hitsDeleted (cid :: get_category_descendants s cid) p = false := by
        rw [← Bool.not_eq_true]
        intro hc
        exact hx (hhit.mp hc)
      simp [hh]

def c4WCat : Category :=
  { id := "x", name := "X", color := "#111111", description := "",
    parent_id := none, level := 1, path := "X", created_at := 0, updated_at := 0 }

def c4WChild : Category :=
  { id := "y", name := "Y", color := "#222222", description := "",
    parent_id := some "x", level := 2, path := "X/Y", created_at := 0, updated_at := 0 }

def c4WFallback : Category :=
  { id := "0", name := "未分类", color := "#9CA3AF", description := "",
    parent_id := none, level := 1, path := "未分类", created_at := 0, updated_at := 0 }

def c4WPrompt : Prompt :=
  { id := "p1", title := "t", content := "c", description := "",
    category_id := some "y", category_name := "Y", category_path := "X/Y",
    usage_count := 0, current_version := "1.0", created_at := 0, updated_at := 0 }

def c4WStore : Store :=
  { prompts := [c4WPrompt], prompt_versions := [],
    categories := [c4WCat, c4WChild, c4WFallback], tags := [], prompt_tags := [] }

/-- C4 witness: force-deleting "x" removes "x" and its descendant "y"
and keeps only the fallback row. -/
theorem force_delete_category_spec_witness :
    (get_category_descendants c4WStore "x").Nodup ∧
    (force_delete_category c4WStore "x" 9).1.categories = [c4WFallback] :=
  ⟨(force_delete_category_spec c4WStore "x" 9 c4WCat c4WFallback
      ⟨by decide, by decide, by decide,
       ⟨fun i => if i = "y" then 1 else 0, by decide, by decide⟩⟩
      rfl rfl).1,
   rfl⟩

def c5CatA : Category :=
  { id := "a", name := "A", color := "#1", description := "",
    parent_id := none, level := 1, path := "A", created_at := 0, updated_at := 0 }

def c5CatB : Category :=
  { id := "b", name := "B", color := "#2", description := "",
    parent_id := some "a", level := 2, path := "A/B", created_at := 0, updated_at := 0 }

def c5CatC : Category :=
  { id := "c", name := "C", color := "#3", description := "",
    parent_id := some "b", level := 3, path := "A/B/C", created_at := 0, updated_at := 0 }

def c5Store : Store :=
  { prompts := [], prompt_versions := [], categories := [c5CatA, c5CatB, c5CatC],
    tags := [], prompt_tags := [] }

def c5CatBOut : Category :=
  { id := "b", name := "B", color := "#2", description := "",
    parent_id := none, level := 1, path := "B", created_at := 0, updated_at := 9 }

def c5CatCOut : Category :=
  { id := "c", name := "C", color := "#3", description := "",
    parent_id := some "b", level := 3, path := "B/C", created_at := 0, updated_at := 0 }

def c5StoreOut : Store :=
  { prompts := [], prompt_versions := [],
    categories := [c5CatA, c5CatBOut, c5CatCOut], tags := [], prompt_tags := [] }

/-- C5, counterexample to the claim as stated.  `update_category`
recomputes the `level` of the updated category only: re-parenting "b"
(level 2, with child "c" at level 3) to the root succeeds, sets
`b.level = 1`, recomputes all paths — but leaves `c.level = 3` although
`c`'s parent "b" now has level 1, so the store-wide level invariant is
broken without any error. -/
theorem category_level_counterexample :
    update_category c5Store "b" { parent_id := some none } 9 =
      Except.ok (c5StoreOut, c5CatBOut) ∧
    ¬ LevelInv c5StoreOut.categories := by
  constructor
  · rfl
  · intro h
    have := (h c5CatCOut (by decide)).2 "b" c5CatBOut rfl (by decide) rfl
    exact absurd this (by decide)

theorem find?_map_pres_id {l : List Category} {f : Category → Category}
    (hf : ∀ c, (f c).id = c.id) (cid : String) :
    (l.map f).find? (fun c => decide (c.id = cid)) =
      (l.find? (fun c => decide (c.id = cid))).map f := by
  induction l with
  | nil => rfl
  | cons a t ih =>
    by_cases h : a.id = cid
    · rw [List.map_cons, List.find?_cons_of_pos _ (by simp [hf, h]),
        List.find?_cons_of_pos _ (by simp [h])]
      rfl
    · rw [List.map_cons, List.find?_cons_of_neg _ (by simp [hf, h]),
        List.find?_cons_of_neg _ (by simp [h]), ih]

theorem levelInv_map_pres {l : List Category} {f : Category → Category}
    (hid : ∀ c, (f c).id = c.id) (hpar : ∀ c, (f c).parent_id = c.parent_id)
    (hlvl : ∀ c, (f c).level = c.level) (h : LevelInv l) : LevelInv (l.map f) := by
  intro c' hc'
  obtain ⟨c, hc, rfl⟩ := List.mem_map.mp hc'
  constructor
  · intro hroot
    rw [hpar c] at hroot
    rw [hlvl c]
    exact (h c hc).1 hroot
  · intro pid p' hpId hp' hp'id
    obtain ⟨p, hp, rfl⟩ := List.mem_map.mp hp'
    rw [hpar c] at hpId
    rw [hlvl c, hlvl p]
    exact (h c hc).2 pid p hpId hp (by rw [← hid p]; exact hp'id)

theorem levelInv_updateCategoryPaths {l : List Category} (h : LevelInv l) :
    LevelInv (updateCategoryPaths l) := by
  unfold updateCategoryPaths
  exact @levelInv_map_pres l (fun c => { c with path := buildCategoryPath l.length c.id l })
    (fun c => rfl) (fun c => rfl) (fun c => rfl) h

theorem find?_updateCategoryPaths (l : List Category) (cid : String) :
    (updateCategoryPaths l).find? (fun c => decide (c.id = cid)) =
      (l.find? (fun c => decide (c.id = cid))).map
        (fun c => { c with path := buildCategoryPath l.length c.id l }) := by
  unfold updateCategoryPaths
  exact @find?_map_pres_id l
    (fun c => { c with path := buildCategoryPath l.length c.id l }) (fun c => rfl) cid

theorem find?_updateCategoryPaths_level {l : List Category} {cid : String} {c' : Category}
    (h : (updateCategoryPaths l).find? (fun c => decide (c.id = cid)) = some c') :
    ∃ c0, l.find? (fun c => decide (c.id = cid)) = some c0 ∧
      c'.level = c0.level ∧ c'.parent_id = c0.parent_id := by
  rw [find?_updateCategoryPaths] at h
  cases hf : l.find? (fun c => decide (c.id = cid)) with
  | none => rw [hf] at h; simp at h
  | some c0 =>
    rw [hf] at h
    simp only [Option.map_some'] at h
    have h2 := (Option.some.injEq _ _).mp h
    refine ⟨c0, rfl, ?_, ?_⟩
    · rw [← h2]
    · rw [← h2]

/-- C5, amended.  (1) `create_category` preserves the store-wide level
invariant (root ⇒ 1, resolving parent ⇒ parent.level + 1) on a
well-formed store with a fresh id; (2) `create_category` under a parent
at level ≥ 5 fails with the depth error; (3)/(4) a successful
`update_category` recomputes the level of the UPDATED category only —
parent.level + 1 under a resolving new parent, 1 when moved to the
root (so, per the counterexample, descendants keep stale levels and the
store-wide invariant can break, which is why the original claim fails);
(5) `update_category` under a new parent at level ≥ 5 (cycle check
passed) fails with the depth error; (6)/(7) both operations keep every
stored level ≤ 5. -/
theorem category_level_spec :
    (∀ (s : Store) (d : CategoryData) (fid : String) (now : Nat) (s' : Store)
       (c' : Category), CatWF s.categories → LevelInv s.categories →
      fid ≠ "" → (∀ c ∈ s.categories, c.parent_id ≠ some fid) →
      d.parent_id ≠ some fid →
      create_category s d fid now = Except.ok (s', c') → LevelInv s'.categories) ∧
    (∀ (s : Store) (d : CategoryData) (fid : String) (now : Nat) (p : Category),
      CatWF s.categories →
      s.categories.find? (fun c => decide (some c.id = d.parent_id)) = some p →
      5 ≤ p.level → create_category s d fid now = Except.error StoreErr.depth) ∧
    (∀ (s : Store) (cid : String) (u : CategoryUpdate) (now : Nat) (s' : Store)
       (c' : Category) (pid : String) (p : Category), CatWF s.categories →
      u.parent_id = some (some pid) →
      s.categories.find? (fun c => decide (c.id = pid)) = some p →
      update_category s cid u now = Except.ok (s', c') →
      s'.categories.find? (fun c => decide (c.id = cid)) = some c' ∧
        c'.level = p.level + 1) ∧
    (∀ (s : Store) (cid : String) (u : CategoryUpdate) (now : Nat) (s' : Store)
       (c' : Category), u.parent_id = some none →
      update_category s cid u now = Except.ok (s', c') →
      s'.categories.find? (fun c => decide (c.id = cid)) = some c' ∧ c'.level = 1) ∧
    (∀ (s : Store) (cid : String) (u : CategoryUpdate) (now : Nat) (cat : Category)
       (pid : String) (p : Category), CatWF s.categories →
      s.categories.find? (fun c => decide (c.id = cid)) = some cat →
      u.parent_id = some (some pid) →
      ¬ (pid = cid ∨ CatDesc s.categories cid pid) →
      s.categories.find? (fun c => decide (c.id = pid)) = some p →
      5 ≤ p.level → update_category s cid u now = Except.error StoreErr.depth) ∧
    (∀ (s : Store) (d : CategoryData) (fid : String) (now : Nat) (s' : Store)
       (c' : Category), (∀ c ∈ s.categories, c.level ≤ 5) →
      create_category s d fid now = Except.ok (s', c') →
      ∀ c ∈ s'.categories, c.level ≤ 5) ∧
    (∀ (s : Store) (cid : String) (u : CategoryUpdate) (now : Nat) (s' : Store)
       (c' : Category), (∀ c ∈ s.categories, c.level ≤ 5) →
      update_category s cid u now = Except.ok (s', c') →
      ∀ c ∈ s'.categories, c.level ≤ 5) := by
  refine ⟨?_, ?_, ?_, ?_, ?_, ?_, ?_⟩
  · -- (1) create preserves LevelInv
    intro s d fid now s' c' hwf hinv hfidne hnoref hdne h
    obtain ⟨level, hd5, hbr, hcats, _⟩ := create_category_ok_shape h
    rw [hcats]
    apply levelInv_updateCategoryPaths
    intro c hc
    rcases List.mem_append.mp hc with hc | hc
    · refine ⟨(hinv c hc).1, ?_⟩
      intro pid p hpid hp hpId
      rcases List.mem_append.mp hp with hp | hp
      · exact (hinv c hc).2 pid p hpid hp hpId
      · simp only [List.mem_singleton] at hp
        subst hp
        exact absurd (by rw [hpid, ← hpId]) (hnoref c hc)
    · simp only [List.mem_singleton] at hc
      subst hc
      constructor
      · intro hroot
        simp only at hroot
        rcases hbr with ⟨hft, hlvl⟩ | ⟨ht, hbr2⟩
        · exact hlvl
        · rw [hroot] at ht
          simp [strTruthy] at ht
      · intro pid p hpid hp hpId
        simp only at hpid
        rcases List.mem_append.mp hp with hp | hp
        · rcases hbr with ⟨hft, hlvl⟩ | ⟨ht, hbr2⟩
          · cases hdp : d.parent_id with
            | none => rw [hdp] at hpid; exact absurd hpid (by simp)
            | some x =>
              have hx : x = "" := by
                rw [hdp] at hft
                by_contra hne
                simp [strTruthy, hne] at hft
              rw [hdp] at hpid
              have hxp : x = pid := (Option.some.injEq _ _).mp hpid
              exact absurd (show p.id = "" by rw [hpId, ← hxp, hx]) (hwf.ids_ne p hp)
          · rcases hbr2 with ⟨hpfn, hlvl⟩ | ⟨p0, hpf0, hlvl⟩
            · have hnone := List.find?_eq_none.mp hpfn p hp
              exact absurd (by simp only [decide_eq_true_eq]; rw [hpId, ← hpid]) hnone
            · have hdp : d.parent_id = some p0.id := by
                have := List.find?_some hpf0
                simp only [decide_eq_true_eq] at this
                exact this.symm
              have hpids : p0.id = pid := by
                rw [hdp] at hpid
                exact (Option.some.injEq _ _).mp hpid
              have hp0mem := List.mem_of_find?_eq_some hpf0
              have hpp : p = p0 :=
                mem_id_unique hwf.nodup_ids hp hp0mem (by rw [hpId, hpids])
              subst hpp
              simpa using hlvl
        · simp only [List.mem_singleton] at hp
          subst hp
          simp only at hpId
          rw [← hpId] at hpid
          exact absurd hpid hdne
  · -- (2) create depth error
    intro s d fid now p hwf hpf h5
    have hpmem := List.mem_of_find?_eq_some hpf
    have hdp : d.parent_id = some p.id := by
      have := List.find?_some hpf
      simp only [decide_eq_true_eq] at this
      exact this.symm
    have ht : strTruthy d.parent_id = true := by
      rw [hdp]
      simp only [strTruthy, decide_eq_true_eq]
      exact hwf.ids_ne p hpmem
    have h51 : 5 < p.level + 1 := by omega
    simp [create_category, ht, hpf, h51]
  · -- (3) level of the moved category under a resolving parent
    intro s cid u now s' c' pid p hwf hup hpf h
    obtain ⟨cat, lvl, hfind, hstep, hcats, hfres⟩ := update_category_ok_cases h
    have hpmem := List.mem_of_find?_eq_some hpf
    have hpid : p.id = pid := (find_id_some hpf).2
    have hpidne : pid ≠ "" := by rw [← hpid]; exact hwf.ids_ne p hpmem
    rcases categoryLevelStep_ok_cases hstep with ⟨hup2, _⟩ | ⟨v, hup2, hvf, _⟩ |
      ⟨pid2, hup2, _, _, hsub⟩
    · rw [hup] at hup2; exact absurd hup2 (by simp)
    · rw [hup] at hup2
      have hv : v = some pid := ((Option.some.injEq _ _).mp hup2).symm
      subst hv
      simp [strTruthy, hpidne] at hvf
    · rw [hup] at hup2
      have hpe : pid2 = pid :=
        ((Option.some.injEq _ _).mp ((Option.some.injEq _ _).mp hup2)).symm
      subst hpe
      rcases hsub with ⟨hn, _⟩ | ⟨p2, hpf2, hle, hlvl⟩
      · rw [hpf] at hn; exact absurd hn (by simp)
      · rw [hpf] at hpf2
        have hp2 : p2 = p := ((Option.some.injEq _ _).mp hpf2).symm
        rw [hp2] at hlvl
        subst hlvl
        refine ⟨hfres, ?_⟩
        have hasf : (u.name.isSome || u.color.isSome || u.description.isSome ||
            u.parent_id.isSome || (some (p.level + 1) : Option Nat).isSome) = true := by
          rw [hup]; simp
        rw [if_pos hasf] at hcats
        rw [hcats] at hfres
        obtain ⟨c0, hc0find, hc0lvl, _⟩ := find?_updateCategoryPaths_level hfres
        have hidf : ∀ c : Category,
            ((if c.id = cid then applyCategoryUpdate u (some (p.level + 1)) now c else c) :
              Category).id = c.id := by
          intro c
          by_cases hcc : c.id = cid <;> simp [hcc, applyCategoryUpdate]
        rw [@find?_map_pres_id s.categories
          (fun c => if c.id = cid then applyCategoryUpdate u (some (p.level + 1)) now c else c)
          hidf cid, hfind] at hc0find
        simp only [Option.map_some'] at hc0find
        have hcatid : cat.id = cid := (find_id_some hfind).2
        rw [if_pos hcatid] at hc0find
        have hc0 : c0 = applyCategoryUpdate u (some (p.level + 1)) now cat :=
          ((Option.some.injEq _ _).mp hc0find).symm
        rw [hc0lvl, hc0]
        simp [applyCategoryUpdate]
  · -- (4) level of the category moved to the root
    intro s cid u now s' c' hup h
    obtain ⟨cat, lvl, hfind, hstep, hcats, hfres⟩ := update_category_ok_cases h
    rcases categoryLevelStep_ok_cases hstep with ⟨hup2, _⟩ | ⟨v, hup2, hvf, hlvl⟩ |
      ⟨pid2, hup2, _, _, hsub⟩
    · rw [hup] at hup2; exact absurd hup2 (by simp)
    · rw [hup] at hup2
      have hv : v = none := ((Option.some.injEq _ _).mp hup2).symm
      subst hv
      subst hlvl
      refine ⟨hfres, ?_⟩
      have hasf : (u.name.isSome || u.color.isSome || u.description.isSome ||
          u.parent_id.isSome || (some 1 : Option Nat).isSome) = true := by
        rw [hup]; simp
      rw [if_pos hasf] at hcats
      rw [hcats] at hfres
      obtain ⟨c0, hc0find, hc0lvl, _⟩ := find?_updateCategoryPaths_level hfres
      have hidf : ∀ c : Category,
          ((if c.id = cid then applyCategoryUpdate u (some 1) now c else c) :
            Category).id = c.id := by
        intro c
        by_cases hcc : c.id = cid <;> simp [hcc, applyCategoryUpdate]
      rw [@find?_map_pres_id s.categories
        (fun c => if c.id = cid then applyCategoryUpdate u (some 1) now c else c)
        hidf cid, hfind] at hc0find
      simp only [Option.map_some'] at hc0find
      have hcatid : cat.id = cid := (find_id_some hfind).2
      rw [if_pos hcatid] at hc0find
      have hc0 : c0 = applyCategoryUpdate u (some 1) now cat :=
        ((Option.some.injEq _ _).mp hc0find).symm
      rw [hc0lvl, hc0]
      simp [applyCategoryUpdate]
    · rw [hup] at hup2
      exact absurd ((Option.some.injEq _ _).mp hup2) (by simp)
  · -- (5) update depth error
    intro s cid u now cat pid p hwf hfind hup hnc hpf h5
    have hpmem := List.mem_of_find?_eq_some hpf
    have hpid : p.id = pid := (find_id_some hpf).2
    have hpidne : pid ≠ "" := by rw [← hpid]; exact hwf.ids_ne p hpmem
    have hcyc : would_create_cycle s cid pid = false := by
      rw [← Bool.not_eq_true]
      intro hc
      exact hnc ((would_create_cycle_iff hwf hfind).mp hc)
    have hstep : categoryLevelStep s cid u.parent_id = Except.error StoreErr.depth := by
      rw [hup]
      have ht : strTruthy (some pid) = true := by
        simp only [strTruthy, decide_eq_true_eq]
        exact hpidne
      simp only [categoryLevelStep, ht, if_true]
      have hgd : (some pid).getD "" = pid := rfl
      rw [hgd, hcyc]
      simp only [Bool.false_eq_true, if_false]
      rw [hpf]
      have h51 : 5 < p.level + 1 := by omega
      simp [h51]
    simp only [update_category, hfind, hstep]
  · -- (6) create keeps levels ≤ 5
    intro s d fid now s' c' hb h
    obtain ⟨level, hd5, hbr, hcats, _⟩ := create_category_ok_shape h
    intro c hc
    rw [hcats] at hc
    obtain ⟨c1, hc1, rfl⟩ := List.mem_map.mp hc
    simp only
    rcases List.mem_append.mp hc1 with hc1 | hc1
    · exact hb c1 hc1
    · simp only [List.mem_singleton] at hc1
      subst hc1
      simp only
      have h6 : ¬ 5 < level := fun hx => hd5 hx
      omega
  · -- (7) update keeps levels ≤ 5
    intro s cid u now s' c' hb h
    obtain ⟨cat, lvl, hfind, hstep, hcats, _⟩ := update_category_ok_cases h
    have hlvl5 : ∀ v, lvl = some v → v ≤ 5 := by
      intro v hv
      rcases categoryLevelStep_ok_cases hstep with ⟨_, hl⟩ | ⟨_, _, _, hl⟩ |
        ⟨_, _, _, _, hsub⟩
      · rw [hl] at hv; simp at hv
      · rw [hl] at hv
        have : v = 1 := ((Option.some.injEq _ _).mp hv).symm
        omega
      · rcases hsub with ⟨_, hl⟩ | ⟨p2, _, hle, hl⟩
        · rw [hl] at hv; simp at hv
        · rw [hl] at hv
          have : v = p2.level + 1 := ((Option.some.injEq _ _).mp hv).symm
          omega
    intro c hc
    rw [hcats] at hc
    by_cases hf : (u.name.isSome || u.color.isSome || u.description.isSome ||
        u.parent_id.isSome || lvl.isSome) = true
    · rw [if_pos hf] at hc
      obtain ⟨c1, hc1, rfl⟩ := List.mem_map.mp hc
      obtain ⟨c2, hc2, rfl⟩ := List.mem_map.mp hc1
      simp only
      by_cases hcc : c2.id = cid
      · rw [if_pos hcc]
        simp only [applyCategoryUpdate]
        cases hlv : lvl with
        | none => simp only [hlv, Option.getD_none]; exact hb c2 hc2
        | some v =>
          simp only [hlv, Option.getD_some]
          exact hlvl5 v hlv
      · rw [if_neg hcc]
        exact hb c2 hc2
    · rw [if_neg hf] at hc
      obtain ⟨c1, hc1, rfl⟩ := List.mem_map.mp hc
      simp only
      exact hb c1 hc1

/-- C5 witness: moving "b" to the root sets its own level to 1. -/
theorem category_level_spec_witness :
    c5StoreOut.categories.find? (fun c => decide (c.id = "b")) = some c5CatBOut ∧
    c5CatBOut.level = 1 :=
  category_level_spec.2.2.2.1 c5Store "b" { parent_id := some none } 9
    c5StoreOut c5CatBOut rfl rfl

/-- Python's `str.strip()` whitespace class, i.e. `str.isspace()`:
U+0009–U+000D, U+001C–U+001F, space, U+0085 (NEL), U+00A0 (NBSP),
U+1680 (ogham space mark), U+2000–U+200A (typographic spaces),
U+2028/U+2029 (line/paragraph separator), U+202F (narrow NBSP),
U+205F (medium mathematical space), U+3000 (ideographic space). -/
def pySpace (c : Char) : Bool :=
  decide (9 ≤ c.toNat ∧ c.toNat ≤ 13) || decide (28 ≤ c.toNat ∧ c.toNat ≤ 31) ||
    decide (c.toNat = 32) || decide (c.toNat = 133) || decide (c.toNat = 160) ||
    decide (c.toNat = 5760) || decide (8192 ≤ c.toNat ∧ c.toNat ≤ 8202) ||
    decide (c.toNat = 8232) || decide (c.toNat = 8233) || decide (c.toNat = 8239) ||
    decide (c.toNat = 8287) || decide (c.toNat = 12288)

def stripChars (l : List Char) : List Char :=
  ((l.dropWhile pySpace).reverse.dropWhile pySpace).reverse

/-- `tag_name.strip()`. -/
def stripString (nm : String) : String :=
  String.mk (stripChars nm.data)

/-- `SQLiteStorage._add_tag_to_prompt`: skip empty / whitespace-only
names, strip the name, get-or-create the tag row by (stripped) name,
then `INSERT OR IGNORE` the `(prompt_id, tag_id)` linkage (the table's
primary key is `(prompt_id, tag_id)`). -/
def add_tag_to_prompt (s : Store) (pid nm freshId : String) (now : Nat) : Store :=
  if stripChars nm.data = [] then s
  else
    let t := stripString nm
    match s.tags.find? (fun tg => decide (tg.name = t)) with
    | some tg =>
      if s.prompt_tags.any (fun l => decide (l.prompt_id = pid ∧ l.tag_id = tg.id)) then s
      else { s with prompt_tags :=
        (s.prompt_tags ++ [({ prompt_id := pid, tag_id := tg.id, created_at := now } : PromptTag)]) }
    | none =>
      let s2 := { s with tags := (s.tags ++
        [({ id := freshId, name := t, color := "#3B82F6", created_at := now,
            updated_at := now } : Tag)]) }
      if s2.prompt_tags.any (fun l => decide (l.prompt_id = pid ∧ l.tag_id = freshId)) then s2
      else { s2 with prompt_tags :=
        (s2.prompt_tags ++ [({ prompt_id := pid, tag_id := freshId, created_at := now } : PromptTag)]) }

/-- The `for tag_name in tags:` loop over `_add_tag_to_prompt`, with one
caller-supplied fresh id available per name. -/
def add_tags_loop (pid : String) (now : Nat) : Store → List String → List String → Store
  | s, [], _ => s
  | s, nm :: rest, fids =>
    add_tags_loop pid now (add_tag_to_prompt s pid nm (fids.headD "") now) rest fids.tail

/-- `SQLiteStorage._update_prompt_tags`: drop every linkage of the
prompt, then re-attach the replacement names. -/
def update_prompt_tags (s : Store) (pid : String) (tags : List String)
    (fids : List String) (now : Nat) : Store :=
  add_tags_loop pid now
    { s with prompt_tags := (s.prompt_tags.filter (fun l => decide (l.prompt_id ≠ pid))) }
    tags fids

/-- The update payload of `SQLiteStorage.update_prompt` as the request
layer builds it (`app.py` `update_prompt` route): the route may insert
the keys `title`, `content`, `description`, `category` (a category
name), `category_id` (possibly with value `None`) and `tags`.  `none` =
key absent. -/
structure PromptUpdate where
  title : Option String := none
  content : Option String := none
  description : Option String := none
  category : Option String := none
  category_id : Option (Option String) := none
  tags : Option (List String) := none
deriving Repr

/-- The category-resolution block at the top of
`SQLiteStorage.update_prompt`, entered when the `category_id` key is
present with value `v`: it yields the `(category_id, category_name,
category_path)` values that end up in `update_data` (`none` = the key
is not injected). -/
def resolvePromptCategory (s : Store) (v : Option String) :
    Option (Option String) × Option String × Option String :=
  if strTruthy v then
    match s.categories.find? (fun c => decide (some c.id = v)) with
    | some cat => (some v, some cat.name, some cat.path)
    | none => (some none, some "其他", some "其他")
  else (some v, none, none)

/-- The `UPDATE prompts SET ... WHERE id = ?` row rewrite of
`update_prompt`. -/
def applyPromptUpdate (u : PromptUpdate)
    (resolved : Option (Option String) × Option String × Option String)
    (now : Nat) (p : Prompt) : Prompt :=
  { p with title := u.title.getD p.title
           content := u.content.getD p.content
           description := u.description.getD p.description
           category_id := resolved.1.getD p.category_id
           category_name := (resolved.2.1).getD p.category_name
           category_path := (resolved.2.2).getD p.category_path
           updated_at := now }

/-- `SQLiteStorage.update_prompt`.  Only the whitelisted columns
(`title`, `content`, `description`, `category_id`, plus the
`category_name`/`category_path` values the `category_id` resolution
injects) participate in the `UPDATE prompts` statement — `updated_at`
is appended only when `update_fields` is non-empty.  The route's
`category` key is not in the whitelist and is never read, so it
contributes nothing; a `tags` key is handled separately by
`_update_prompt_tags` without touching the `prompts` row. -/
def update_prompt (s : Store) (pid : String) (u : PromptUpdate)
    (freshIds : List String) (now : Nat) : Option Store :=
  if ¬ prompt_exists s pid then none
  else
    let resolved : Option (Option String) × Option String × Option String :=
      match u.category_id with
      | none => (none, none, none)
      | some v => resolvePromptCategory s v
    let hasFields : Bool :=
      u.title.isSome || u.content.isSome || u.description.isSome || u.category_id.isSome
    let prompts1 :=
      if hasFields then
        s.prompts.map (fun p =>
          if p.id = pid then applyPromptUpdate u resolved now p else p)
      else s.prompts
    let s1 := { s with prompts := prompts1 }
    some (match u.tags with
      | none => s1
      | some ts => update_prompt_tags s1 pid ts freshIds now)

theorem add_tag_to_prompt_prompts (s : Store) (pid nm fid : String) (now : Nat) :
    (add_tag_to_prompt s pid nm fid now).prompts = s.prompts := by
  unfold add_tag_to_prompt
  by_cases he : stripChars nm.data = []
  · rw [if_pos he]
  · rw [if_neg he]
    cases hf : s.tags.find? (fun tg => decide (tg.name = stripString nm)) with
    | some tg =>
      by_cases ha : s.prompt_tags.any
          (fun l => decide (l.prompt_id = pid ∧ l.tag_id = tg.id)) = true
      · simp only [hf, ha]
        rfl
      · simp only [hf, ha]
        rfl
    | none =>
      by_cases ha : s.prompt_tags.any
          (fun l => decide (l.prompt_id = pid ∧ l.tag_id = fid)) = true
      · simp only [hf, ha]
        rfl
      · simp only [hf, ha]
        rfl

theorem add_tags_loop_prompts (pid : String) (now : Nat) :
    ∀ (ts : List String) (s : Store) (fids : List String),
      (add_tags_loop pid now s ts fids).prompts = s.prompts := by
  intro ts
  induction ts with
  | nil => intro s fids; rfl
  | cons nm rest ih =>
    intro s fids
    rw [add_tags_loop, ih, add_tag_to_prompt_prompts]

theorem update_prompt_tags_prompts (s : Store) (pid : String) (tags : List String)
    (fids : List String) (now : Nat) :
    (update_prompt_tags s pid tags fids now).prompts = s.prompts := by
  unfold update_prompt_tags
  rw [add_tags_loop_prompts]


/-- The `prompts` table after the scalar-column phase of
`update_prompt` (definitionally the table stored by `update_prompt`
before the tags phase). -/
def promptsAfterUpdate (s : Store) (pid : String) (u : PromptUpdate) (now : Nat) :
    List Prompt :=
  if (u.title.isSome || u.content.isSome || u.description.isSome ||
      u.category_id.isSome) = true then
    s.prompts.map (fun p =>
      if p.id = pid then
        applyPromptUpdate u
          (match u.category_id with
            | none => (none, none, none)
            | some v => resolvePromptCategory s v) now p
      else p)
  else s.prompts

theorem tags_branch_prompts (s1 : Store) (pid : String) (t : Option (List String))
    (fids : List String) (now : Nat) :
    (match t with
      | none => s1
      | some ts => update_prompt_tags s1 pid ts fids now).prompts = s1.prompts := by
  cases t with
  | none => rfl
  | some ts => exact update_prompt_tags_prompts s1 pid ts fids now

/-- C6, amended.  `update_prompt` returns `None` exactly when the id is
unknown; when the payload contains at least one of the whitelisted
scalar keys the route can send — `title`, `content`, `description`,
`category_id` — the stored prompt's `updated_at` is set to the current
time; but a payload with none of those keys — in particular a
tags-only replacement, or one carrying only the route's `category` key,
which the whitelist at the `update_fields` loop excludes and which
`update_prompt` never reads — leaves the `prompts` table, and hence
`updated_at`, entirely unchanged. -/
theorem update_prompt_spec (s : Store) (pid : String) (u : PromptUpdate)
    (fids : List String) (now : Nat) :
    ((¬ ∃ p ∈ s.prompts, p.id = pid) → update_prompt s pid u fids now = none) ∧
    ((∃ p ∈ s.prompts, p.id = pid) →
      (u.title.isSome || u.content.isSome || u.description.isSome ||
        u.category_id.isSome) = true →
      ∃ s', update_prompt s pid u fids now = some s' ∧
        ∀ p' ∈ s'.prompts, p'.id = pid → p'.updated_at = now) ∧
    ((∃ p ∈ s.prompts, p.id = pid) →
      (u.title.isSome || u.content.isSome || u.description.isSome ||
        u.category_id.isSome) = false →
      ∃ s', update_prompt s pid u fids now = some s' ∧ s'.prompts = s.prompts) := by
  refine ⟨?_, ?_, ?_⟩
  · intro hne
    have hex : ¬ prompt_exists s pid = true := by
      rw [prompt_exists_iff]
      exact hne
    simp [update_prompt, hex]
  · intro hex hf
    have hex2 : prompt_exists s pid = true := (prompt_exists_iff s pid).mpr hex
    have hupd : ∀ p' ∈ promptsAfterUpdate s pid u now,
        p'.id = pid → p'.updated_at = now := by
      unfold promptsAfterUpdate
      rw [if_pos hf]
      intro p' hp' hp'id
      obtain ⟨p0, hp0, rfl⟩ := List.mem_map.mp hp'
      by_cases hcc : p0.id = pid
      · rw [if_pos hcc]
        rfl
      · rw [if_neg hcc] at hp'id ⊢
        exact absurd hp'id hcc
    cases hts : u.tags with
    | none =>
      refine ⟨{ s with prompts := promptsAfterUpdate s pid u now }, ?_, ?_⟩
      · simp only [update_prompt, hex2, not_true_eq_false, if_false, hts]
        rfl
      · exact hupd
    | some ts =>
      refine ⟨update_prompt_tags { s with prompts := promptsAfterUpdate s pid u now }
        pid ts fids now, ?_, ?_⟩
      · simp only [update_prompt, hex2, not_true_eq_false, if_false, hts]
        rfl
      · intro p' hp'
        rw [update_prompt_tags_prompts] at hp'
        exact hupd p' hp'
  · intro hex hf
    have hex2 : prompt_exists s pid = true := (prompt_exists_iff s pid).mpr hex
    have hsame : promptsAfterUpdate s pid u now = s.prompts := by
      unfold promptsAfterUpdate
      rw [if_neg (by rw [hf]; exact Bool.false_ne_true)]
    cases hts : u.tags with
    | none =>
      refine ⟨{ s with prompts := promptsAfterUpdate s pid u now }, ?_, ?_⟩
      · simp only [update_prompt, hex2, not_true_eq_false, if_false, hts]
        rfl
      · exact hsame
    | some ts =>
      refine ⟨update_prompt_tags { s with prompts := promptsAfterUpdate s pid u now }
        pid ts fids now, ?_, ?_⟩
      · simp only [update_prompt, hex2, not_true_eq_false, if_false, hts]
        rfl
      · rw [update_prompt_tags_prompts]
        exact hsame

def c6Prompt : Prompt :=
  { id := "p1", title := "T", content := "C", description := "", category_id := none,
    category_name := "其他", category_path := "其他", usage_count := 0,
    current_version := "1.0", created_at := 0, updated_at := 7 }

def c6Store : Store :=
  { prompts := [c6Prompt], prompt_versions := [], categories := [],
    tags := [], prompt_tags := [] }

def c6StoreOut : Store :=
  { prompts := [c6Prompt], prompt_versions := [], categories := [],
    tags := [{ id := "t1", name := "x", color := "#3B82F6", created_at := 99,
               updated_at := 99 }],
    prompt_tags := [{ prompt_id := "p1", tag_id := "t1", created_at := 99 }] }

/-- C6, counterexample to the claim as stated.  A payload containing
only a tags replacement builds an empty `update_fields` list, so no
`UPDATE prompts` statement runs: the tag linkage changes but the
prompt row keeps `updated_at = 7` instead of being bumped to the
current time 99.  Likewise a payload carrying only the route's
`category` key (not in the whitelist, never read) is a complete no-op
on the store. -/
theorem update_prompt_counterexample :
    update_prompt c6Store "p1" { tags := some ["x"] } ["t1"] 99 = some c6StoreOut ∧
    c6StoreOut.prompts = [c6Prompt] ∧
    update_prompt c6Store "p1" { category := some "工作" } [] 99 = some c6Store ∧
    c6Prompt.updated_at = 7 ∧
    c6Prompt.updated_at ≠ 99 :=
  ⟨rfl, rfl, rfl, rfl, by decide⟩

/-- C6 witness: a title-only payload on an existing prompt succeeds. -/
theorem update_prompt_spec_witness :
    update_prompt c6Store "p1" { title := some "T2" } [] 42 ≠ none := by
  obtain ⟨s', h1, _⟩ :=
    (update_prompt_spec c6Store "p1" { title := some "T2" } [] 42).2.1
      ⟨c6Prompt, by decide, rfl⟩ rfl
  rw [h1]
  simp

inductive DeleteCategoryResult
  | notFound (error : String)
  | preview (category_name : String) (child_categories_count : Nat)
      (affected_prompts_count : Nat) (child_categories : List String)
deriving Repr, DecidableEq

/-- `SQLiteStorage.delete_category`: runs only SELECT / COUNT queries
and returns an impact preview (`requires_confirmation`) instead of
deleting; the store is returned untouched because the Python function
contains no UPDATE or DELETE statement at all. -/
def delete_category (s : Store) (cid : String) : Store × DeleteCategoryResult :=
  match s.categories.find? (fun c => decide (c.id = cid)) with
  | none => (s, DeleteCategoryResult.notFound "category does not exist")
  | some category =>
    (s, DeleteCategoryResult.preview category.name
      (s.categories.countP (fun c => decide (c.parent_id = some cid)))
      (s.prompts.countP (fun p => decide (p.category_id = some cid ∨
        p.category_name = category.name)))
      ((s.categories.filter (fun c => decide (c.parent_id = some cid))).map
        (fun c => c.name)))

/-- C7.  `delete_category` never deletes or mutates anything — the
result store is the input store, for every id — and for an existing id
it returns the impact preview: the category's name, the number of
direct child categories, the number of prompts referencing the category
by id or (legacy) by name, and the direct children's names. -/
theorem delete_category_preview_spec (s : Store) (cid : String) :
    ((delete_category s cid).1 = s) ∧
    (∀ cat, s.categories.find? (fun c => decide (c.id = cid)) = some cat →
      (delete_category s cid).2 = DeleteCategoryResult.preview cat.name
        (s.categories.countP (fun c => decide (c.parent_id = some cid)))
        (s.prompts.countP (fun p => decide (p.category_id = some cid ∨
          p.category_name = cat.name)))
        ((s.categories.filter (fun c => decide (c.parent_id = some cid))).map
          (fun c => c.name))) := by
  constructor
  · cases hf : s.categories.find? (fun c => decide (c.id = cid)) with
    | none => simp [delete_category, hf]
    | some cat => simp [delete_category, hf]
  · intro cat hf
    simp [delete_category, hf]

def c7CatA : Category :=
  { id := "a", name := "Root", color := "#111111", description := "",
    parent_id := none, level := 1, path := "Root", created_at := 0, updated_at := 0 }

def c7CatB : Category :=
  { id := "b", name := "Child", color := "#222222", description := "",
    parent_id := some "a", level := 2, path := "Root/Child",
    created_at := 0, updated_at := 0 }

def c7Prompt : Prompt :=
  { id := "p1", title := "t", content := "c", description := "",
    category_id := some "a", category_name := "Root", category_path := "Root",
    usage_count := 0, current_version := "1.0", created_at := 0, updated_at := 0 }

def c7Store : Store :=
  { prompts := [c7Prompt], prompt_versions := [], categories := [c7CatA, c7CatB],
    tags := [], prompt_tags := [] }

/-- C7 witness: the preview for "a" reports its name, one child, one
affected prompt and the child's name, and the store is unchanged. -/
theorem delete_category_preview_spec_witness :
    (delete_category c7Store "a").1 = c7Store ∧
    (delete_category c7Store "a").2 =
      DeleteCategoryResult.preview "Root" 1 1 ["Child"] :=
  ⟨(delete_category_preview_spec c7Store "a").1,
   (delete_category_preview_spec c7Store "a").2 c7CatA rfl⟩

theorem find?_append_left_none {α : Type} {p : α → Bool} {l1 l2 : List α}
    (h : l1.find? p = none) : (l1 ++ l2).find? p = l2.find? p := by
  induction l1 with
  | nil => rfl
  | cons a t ih =>
    have ha := List.find?_eq_none.mp h a (List.mem_cons_self a t)
    rw [List.cons_append, List.find?_cons_of_neg _ ha]
    exact ih (List.find?_eq_none.mpr
      (fun x hx => List.find?_eq_none.mp h x (List.mem_cons_of_mem _ hx)))

/-- `SQLiteStorage.create_tag`: return the existing row when a tag with
the name exists, otherwise insert a fresh row and return it. -/
def create_tag (s : Store) (name color freshId : String) (now : Nat) : Store × Tag :=
  match s.tags.find? (fun t => decide (t.name = name)) with
  | some t => (s, t)
  | none =>
    let t : Tag := { id := freshId, name := name, color := color,
                     created_at := now, updated_at := now }
    ({ s with tags := (s.tags ++ [t]) }, t)

/-- C9.  `create_tag` is idempotent in the tag name: when a tag with
the name already exists the very same row is returned and the store —
in particular the tag table — is not modified; and a second
`create_tag` with the same name (any color / fresh id / time) returns
exactly the store and tag of the first call. -/
theorem create_tag_idempotent :
    (∀ (s : Store) (name color fid : String) (now : Nat) (t : Tag),
      s.tags.find? (fun tg => decide (tg.name = name)) = some t →
      create_tag s name color fid now = (s, t)) ∧
    (∀ (s : Store) (name color fid color2 fid2 : String) (now now2 : Nat),
      create_tag (create_tag s name color fid now).1 name color2 fid2 now2 =
        create_tag s name color fid now) := by
  constructor
  · intro s name color fid now t hf
    simp [create_tag, hf]
  · intro s name color fid color2 fid2 now now2
    cases hf : s.tags.find? (fun tg => decide (tg.name = name)) with
    | some t =>
      simp [create_tag, hf]
    | none =>
      have hsnd : ((s.tags ++ [({ id := fid
                                  name := name
                                  color := color
                                  created_at := now
                                  updated_at := now } : Tag)]).find?
            (fun tg => decide (tg.name = name))) =
          some { id := fid
                 name := name
                 color := color
                 created_at := now
                 updated_at := now } := by
        rw [find?_append_left_none hf]
        simp
      simp [create_tag, hf, hsnd]

def c9Tag : Tag :=
  { id := "t1", name := "x", color := "#3B82F6", created_at := 0, updated_at := 0 }

def c9Store : Store :=
  { prompts := [], prompt_versions := [], categories := [], tags := [c9Tag],
    prompt_tags := [] }

/-- C9 witness: creating "x" again returns the existing row and leaves
the store unchanged. -/
theorem create_tag_idempotent_witness :
    create_tag c9Store "x" "#ffffff" "t9" 5 = (c9Store, c9Tag) :=
  create_tag_idempotent.1 c9Store "x" "#ffffff" "t9" 5 c9Tag rfl

def mkTag (fid nm2 : String) (now : Nat) : Tag :=
  { id := fid, name := nm2, color := "#3B82F6", created_at := now, updated_at := now }

def mkLink (pid tid : String) (now : Nat) : PromptTag :=
  { prompt_id := pid, tag_id := tid, created_at := now }

theorem countP_pair_le_one {l : List PromptTag}
    (h : (l.map (fun x => (x.prompt_id, x.tag_id))).Nodup) (pid tid : String) :
    l.countP (fun x => decide (x.prompt_id = pid ∧ x.tag_id = tid)) ≤ 1 := by
  induction l with
  | nil => simp
  | cons a t ih =>
    rw [List.map_cons, List.nodup_cons] at h
    by_cases ha : (a.prompt_id = pid ∧ a.tag_id = tid)
    · rw [List.countP_cons_of_pos _ _ (by simpa using ha)]
      have hz : t.countP (fun x => decide (x.prompt_id = pid ∧ x.tag_id = tid)) = 0 := by
        rw [List.countP_eq_zero]
        intro x hx hpx
        simp only [decide_eq_true_eq] at hpx
        refine h.1 ?_
        have hpair : (x.prompt_id, x.tag_id) = (a.prompt_id, a.tag_id) := by
          rw [hpx.1, hpx.2, ha.1, ha.2]
        rw [← hpair]
        exact List.mem_map_of_mem _ hx
      omega
    · rw [List.countP_cons_of_neg _ _ (by simpa using ha)]
      exact ih h.2

theorem countP_pair_eq_one_of_mem {l : List PromptTag}
    (h : (l.map (fun x => (x.prompt_id, x.tag_id))).Nodup) {pid tid : String}
    (hm : ∃ x ∈ l, x.prompt_id = pid ∧ x.tag_id = tid) :
    l.countP (fun x => decide (x.prompt_id = pid ∧ x.tag_id = tid)) = 1 := by
  have h1 := countP_pair_le_one h pid tid
  have h2 : 0 < l.countP (fun x => decide (x.prompt_id = pid ∧ x.tag_id = tid)) := by
    rw [List.countP_pos_iff]
    obtain ⟨x, hx, hp⟩ := hm
    exact ⟨x, hx, by simpa using hp⟩
  omega

/-- C10.  `_add_tag_to_prompt` (the shared primitive behind attaching
tags on prompt creation and on a tags-replacing update): (i) an empty
or whitespace-only tag name is silently dropped — the store is
untouched; (ii) otherwise a tag row whose name is the stripped name is
present afterwards, the `(prompt_id, tag_id)` linkage to it exists in
exactly one row (the table's `PRIMARY KEY (prompt_id, tag_id)` is
modelled as pair-uniqueness of the pre-state's linkage table), and
attaching the same name to the same prompt a second time leaves the
store exactly as after the first attach. -/
theorem add_tag_spec :
    (∀ (s : Store) (pid nm fid : String) (now : Nat),
      stripChars nm.data = [] → add_tag_to_prompt s pid nm fid now = s) ∧
    (∀ (s : Store) (pid nm fid fid2 : String) (now now2 : Nat),
      stripChars nm.data ≠ [] →
      (s.prompt_tags.map (fun l => (l.prompt_id, l.tag_id))).Nodup →
      ∃ t ∈ (add_tag_to_prompt s pid nm fid now).tags,
        t.name = stripString nm ∧
        (add_tag_to_prompt s pid nm fid now).prompt_tags.countP
          (fun l => decide (l.prompt_id = pid ∧ l.tag_id = t.id)) = 1 ∧
        add_tag_to_prompt (add_tag_to_prompt s pid nm fid now) pid nm fid2 now2 =
          add_tag_to_prompt s pid nm fid now) := by
  constructor
  · intro s pid nm fid now he
    simp [add_tag_to_prompt, he]
  · intro s pid nm fid fid2 now now2 hne hnd
    cases hf : s.tags.find? (fun tg => decide (tg.name = stripString nm)) with
    | some tg =>
      have htgname : tg.name = stripString nm := by
        have hp := List.find?_some hf
        simpa using hp
      have htgmem := List.mem_of_find?_eq_some hf
      by_cases ha : s.prompt_tags.any
          (fun l => decide (l.prompt_id = pid ∧ l.tag_id = tg.id)) = true
      · have hres : add_tag_to_prompt s pid nm fid now = s := by
          simp only [add_tag_to_prompt, if_neg hne, hf, ha, if_true]
        refine ⟨tg, ?_, htgname, ?_, ?_⟩
        · rw [hres]; exact htgmem
        · rw [hres]
          refine countP_pair_eq_one_of_mem hnd ?_
          obtain ⟨x, hx, hpx⟩ := List.any_eq_true.mp ha
          exact ⟨x, hx, by simpa using hpx⟩
        · have hsnd : add_tag_to_prompt s pid nm fid2 now2 = s := by
            simp only [add_tag_to_prompt, if_neg hne, hf, ha, if_true]
          rw [hres, hsnd]
      · have hres : add_tag_to_prompt s pid nm fid now =
            { s with prompt_tags := (s.prompt_tags ++ [mkLink pid tg.id now]) } := by
          simp only [add_tag_to_prompt, if_neg hne, hf, ha, mkLink]
          rfl
        refine ⟨tg, ?_, htgname, ?_, ?_⟩
        · rw [hres]; exact htgmem
        · rw [hres]
          simp only [List.countP_append]
          have hz : s.prompt_tags.countP
              (fun l => decide (l.prompt_id = pid ∧ l.tag_id = tg.id)) = 0 := by
            rw [List.countP_eq_zero]
            intro x hx hpx
            exact absurd (List.any_eq_true.mpr ⟨x, hx, hpx⟩) ha
          rw [hz]
          simp [mkLink]
        · have ha2 : ((s.prompt_tags ++ [mkLink pid tg.id now]).any
              (fun l => decide (l.prompt_id = pid ∧ l.tag_id = tg.id))) = true := by
            rw [List.any_append]
            simp [mkLink]
          have hsnd : add_tag_to_prompt
              ({ s with prompt_tags := (s.prompt_tags ++ [mkLink pid tg.id now]) })
              pid nm fid2 now2 =
              { s with prompt_tags := (s.prompt_tags ++ [mkLink pid tg.id now]) } := by
            simp only [add_tag_to_prompt, if_neg hne, hf, ha2, if_true]
          rw [hres, hsnd]
    | none =>
      have hf2 : ((s.tags ++ [mkTag fid (stripString nm) now]).find?
            (fun tg => decide (tg.name = stripString nm))) =
          some (mkTag fid (stripString nm) now) := by
        rw [find?_append_left_none hf]
        simp [mkTag]
      have hnewmem : mkTag fid (stripString nm) now ∈
          (s.tags ++ [mkTag fid (stripString nm) now]) := by
        simp
      by_cases ha : s.prompt_tags.any
          (fun l => decide (l.prompt_id = pid ∧ l.tag_id = fid)) = true
      · have hres : add_tag_to_prompt s pid nm fid now =
            { s with tags := (s.tags ++ [mkTag fid (stripString nm) now]) } := by
          simp only [add_tag_to_prompt, if_neg hne, hf, ha, if_true, mkTag]
        refine ⟨mkTag fid (stripString nm) now, ?_, rfl, ?_, ?_⟩
        · rw [hres]; exact hnewmem
        · rw [hres]
          refine countP_pair_eq_one_of_mem hnd ?_
          obtain ⟨x, hx, hpx⟩ := List.any_eq_true.mp ha
          exact ⟨x, hx, by simpa [mkTag] using hpx⟩
        · have hsnd : add_tag_to_prompt
              ({ s with tags := (s.tags ++ [mkTag fid (stripString nm) now]) })
              pid nm fid2 now2 =
              { s with tags := (s.tags ++ [mkTag fid (stripString nm) now]) } := by
            have ha2 : ((s.prompt_tags.any
                (fun l => decide (l.prompt_id = pid ∧
                  l.tag_id = (mkTag fid (stripString nm) now).id))) = true) := by
              simpa [mkTag] using ha
            simp only [add_tag_to_prompt, if_neg hne, hf2, ha2, if_true]
          rw [hres, hsnd]
      · have hres : add_tag_to_prompt s pid nm fid now =
            { s with
                tags := (s.tags ++ [mkTag fid (stripString nm) now])
                prompt_tags := (s.prompt_tags ++ [mkLink pid fid now]) } := by
          simp only [add_tag_to_prompt, if_neg hne, hf, ha, mkTag, mkLink]
          rfl
        refine ⟨mkTag fid (stripString nm) now, ?_, rfl, ?_, ?_⟩
        · rw [hres]; exact hnewmem
        · rw [hres]
          simp only [List.countP_append]
          have hz : s.prompt_tags.countP
              (fun l => decide (l.prompt_id = pid ∧
                l.tag_id = (mkTag fid (stripString nm) now).id)) = 0 := by
            rw [List.countP_eq_zero]
            intro x hx hpx
            refine absurd (List.any_eq_true.mpr ⟨x, hx, ?_⟩) ha
            simpa [mkTag] using hpx
          rw [hz]
          simp [mkLink, mkTag]
        · have ha2 : (((s.prompt_tags ++ [mkLink pid fid now]).any
              (fun l => decide (l.prompt_id = pid ∧
                l.tag_id = (mkTag fid (stripString nm) now).id))) = true) := by
            rw [List.any_append]
            simp [mkLink, mkTag]
          have hsnd : add_tag_to_prompt
              ({ s with
                  tags := (s.tags ++ [mkTag fid (stripString nm) now])
                  prompt_tags := (s.prompt_tags ++ [mkLink pid fid now]) })
              pid nm fid2 now2 =
              { s with
                  tags := (s.tags ++ [mkTag fid (stripString nm) now])
                  prompt_tags := (s.prompt_tags ++ [mkLink pid fid now]) } := by
            simp only [add_tag_to_prompt, if_neg hne, hf2, ha2, if_true]
          rw [hres, hsnd]

def c10Store : Store :=
  { prompts := []
    prompt_versions := []
    categories := []
    tags := []
    prompt_tags := [] }

theorem add_tag_spec_witness :
    (add_tag_to_prompt c10Store "p1" "  " "t1" 5 = c10Store) ∧
    (∃ t ∈ (add_tag_to_prompt c10Store "p1" " x " "t1" 5).tags,
      t.name = stripString " x " ∧
      (add_tag_to_prompt c10Store "p1" " x " "t1" 5).prompt_tags.countP
        (fun l => decide (l.prompt_id = "p1" ∧ l.tag_id = t.id)) = 1 ∧
      add_tag_to_prompt (add_tag_to_prompt c10Store "p1" " x " "t1" 5) "p1" " x " "t2" 6 =
        add_tag_to_prompt c10Store "p1" " x " "t1" 5) :=
  ⟨add_tag_spec.1 c10Store "p1" "  " "t1" 5 (by decide),
   add_tag_spec.2 c10Store "p1" " x " "t1" "t2" 5 6 (by decide) (by decide)⟩

/-- ASCII lower-casing, as SQLite's default `LIKE` applies it. -/
def lowerChar (c : Char) : Char :=
  if 'A' ≤ c ∧ c ≤ 'Z' then Char.ofNat (c.toNat + 32) else c

/-- SQLite `LIKE` over character lists: `%` matches any sequence (some
suffix of the text continues the match), `_` matches exactly one
character, every other pattern character matches case-insensitively
(ASCII case folding only, SQLite's default). -/
def likeRaw : List Char → List Char → Bool
  | [], t => t.isEmpty
  | c :: p2, t =>
    if c = '%' then t.tails.any (likeRaw p2)
    else
      match t with
      | [] => false
      | d :: t2 => (decide (c = '_') || decide (lowerChar c = lowerChar d)) && likeRaw p2 t2

/-- `column LIKE pattern`. -/
def sqlLike (pat text : String) : Bool :=
  likeRaw pat.data text.data

def isPrefixOfL : List Char → List Char → Bool
  | [], _ => true
  | _ :: _, [] => false
  | c :: p, d :: t => decide (c = d) && isPrefixOfL p t

def hasSubstr (needle : List Char) : List Char → Bool
  | [] => isPrefixOfL needle []
  | d :: t2 => isPrefixOfL needle (d :: t2) || hasSubstr needle t2

/-- Case-insensitive (ASCII folding) substring containment: what the
spec means by the query "matching case-insensitively as substring". -/
def ciContains (needle hay : String) : Bool :=
  hasSubstr (needle.data.map lowerChar) (hay.data.map lowerChar)

/-- The `(p.title LIKE ? OR p.content LIKE ? OR p.description LIKE ?)`
condition with parameter `f"%\x7bquery\x7d%"`. -/
def queryCond (q : String) (p : Prompt) : Bool :=
  sqlLike ("%" ++ q ++ "%") p.title || sqlLike ("%" ++ q ++ "%") p.content ||
    sqlLike ("%" ++ q ++ "%") p.description

/-- The category part of the WHERE clause: a truthy `category_id` wins
and matches the prompt's category id against the id itself plus its
descendants; else a truthy `category` compares `category_name`; else no
constraint.  A `NULL` category id never satisfies the `IN` clause. -/
def catCond (s : Store) (category category_id : String) (p : Prompt) : Bool :=
  if category_id = "" then
    (if category = "" then true else decide (p.category_name = category))
  else
    match p.category_id with
    | some cid => (category_id :: get_category_descendants s category_id).contains cid
    | none => false

def promptOrd (a b : Prompt) : Prop := b.updated_at ≤ a.updated_at

instance : DecidableRel promptOrd := fun a b => Nat.decLe b.updated_at a.updated_at

instance : IsTotal Prompt promptOrd := ⟨fun a b => Nat.le_total b.updated_at a.updated_at⟩

instance : IsTrans Prompt promptOrd := ⟨fun _ _ _ h1 h2 => Nat.le_trans h2 h1⟩

/-- `SQLiteStorage.search_prompts`: filter by the accumulated WHERE
conditions (the query condition only when `query` is truthy), then
`ORDER BY p.updated_at DESC`.  The `GROUP BY p.id` of the tag join
leaves the prompt rows themselves untouched. -/
def search_prompts (s : Store) (query category category_id : String) : List Prompt :=
  List.insertionSort promptOrd
    (s.prompts.filter (fun p =>
      (if query = "" then true else queryCond query p) && catCond s category category_id p))

theorem likeRaw_pct_nil (t : List Char) : likeRaw (['%'] : List Char) t = true := by
  simp only [likeRaw, if_true]
  rw [List.any_eq_true]
  exact ⟨[], (List.mem_tails [] t).mpr List.nil_suffix, rfl⟩

theorem likeRaw_lit_pct (q : List Char) (hq : ∀ c ∈ q, c ≠ '%' ∧ c ≠ '_') :
    ∀ t : List Char, likeRaw (q ++ ['%']) t = isPrefixOfL (q.map lowerChar) (t.map lowerChar) := by
  induction q with
  | nil =>
    intro t
    simp only [List.nil_append, List.map_nil]
    rw [likeRaw_pct_nil]
    cases t <;> simp [isPrefixOfL]
  | cons c q2 ih =>
    intro t
    have hc := hq c (List.mem_cons_self c q2)
    have hq2 : ∀ x ∈ q2, x ≠ '%' ∧ x ≠ '_' := fun x hx => hq x (List.mem_cons_of_mem c hx)
    cases t with
    | nil =>
      simp [likeRaw, isPrefixOfL, hc.1]
    | cons d t2 =>
      simp only [List.cons_append, List.map_cons]
      rw [likeRaw]
      simp only [if_neg hc.1, isPrefixOfL, ih hq2 t2]
      simp [hc.2]

theorem hasSubstr_eq_tails_any (qm : List Char) (t : List Char) :
    hasSubstr qm (t.map lowerChar) =
      t.tails.any (fun u => isPrefixOfL qm (u.map lowerChar)) := by
  induction t with
  | nil => simp [hasSubstr]
  | cons d t2 ih =>
    simp only [List.map_cons, hasSubstr, List.tails_cons, List.any_cons, ih, List.map_cons]

theorem likeRaw_pct_lit_pct (q : List Char) (hq : ∀ c ∈ q, c ≠ '%' ∧ c ≠ '_')
    (t : List Char) :
    likeRaw ('%' :: (q ++ ['%'])) t = hasSubstr (q.map lowerChar) (t.map lowerChar) := by
  simp only [likeRaw, if_true]
  rw [hasSubstr_eq_tails_any]
  have hfun : likeRaw (q ++ ['%']) =
      fun u => isPrefixOfL (q.map lowerChar) (u.map lowerChar) :=
    funext (likeRaw_lit_pct q hq)
  rw [hfun]

theorem sqlLike_eq_ciContains (q t : String) (hq : ∀ c ∈ q.data, c ≠ '%' ∧ c ≠ '_') :
    sqlLike ("%" ++ q ++ "%") t = ciContains q t := by
  have hdata : ("%" ++ q ++ "%").data = '%' :: (q.data ++ ['%']) := by
    rw [String.data_append, String.data_append]
    rfl
  rw [sqlLike, hdata, likeRaw_pct_lit_pct q.data hq t.data, ciContains]

theorem hasSubstr_nil_needle (l : List Char) : hasSubstr ([] : List Char) l = true := by
  cases l <;> simp [hasSubstr, isPrefixOfL]

theorem ciContains_empty_needle (x : String) : ciContains "" x = true := by
  rw [ciContains]
  have h0 : ("" : String).data = [] := rfl
  rw [h0]
  simp only [List.map_nil]
  exact hasSubstr_nil_needle _

def c8Prompt : Prompt :=
  { id := "p1"
    title := "abc"
    content := "xyz"
    description := "note"
    category_id := none
    category_name := ""
    category_path := ""
    usage_count := 0
    current_version := "1.0"
    created_at := 1
    updated_at := 2 }

def c8Store : Store :=
  { prompts := [c8Prompt]
    prompt_versions := []
    categories := []
    tags := []
    prompt_tags := [] }

/-- The claim fails for queries containing SQL LIKE metacharacters: the
query string is interpolated unescaped into `%…%`, so searching for the
literal string `%` matches every prompt, here one whose title, content
and description do not contain `%` at all. -/
theorem search_prompts_counterexample :
    search_prompts c8Store "%" "" "" = [c8Prompt] ∧
    (ciContains "%" c8Prompt.title || ciContains "%" c8Prompt.content ||
      ciContains "%" c8Prompt.description) = false :=
  ⟨rfl, rfl⟩

/-- C8.  For query strings free of the LIKE metacharacters `%` and `_`,
`search_prompts(query=x)` returns exactly the prompts one of whose
title, content or description contains `x` as a substring under ASCII
case folding (SQLite's default LIKE case-insensitivity), ordered
most-recently-updated first.  (For queries containing `%` or `_` the
claim is false — see the counterexample: the query is interpolated into
the LIKE pattern unescaped.) -/
theorem search_prompts_spec (s : Store) (q : String)
    (hq : ∀ c ∈ q.data, c ≠ '%' ∧ c ≠ '_') :
    (search_prompts s q "" "").Perm
      (s.prompts.filter (fun p => ciContains q p.title || ciContains q p.content ||
        ciContains q p.description)) ∧
    (search_prompts s q "" "").Sorted promptOrd := by
  have hfilters : s.prompts.filter (fun p =>
      (if q = "" then true else queryCond q p) && catCond s "" "" p) =
      s.prompts.filter (fun p => ciContains q p.title || ciContains q p.content ||
        ciContains q p.description) := by
    apply List.filter_congr
    intro p hp
    have hcat : catCond s "" "" p = true := by simp [catCond]
    rw [hcat, Bool.and_true]
    by_cases hq0 : q = ""
    · subst hq0
      rw [if_pos rfl, ciContains_empty_needle, ciContains_empty_needle,
        ciContains_empty_needle]
      rfl
    · rw [if_neg hq0, queryCond, sqlLike_eq_ciContains q p.title hq,
        sqlLike_eq_ciContains q p.content hq, sqlLike_eq_ciContains q p.description hq]
  constructor
  · rw [search_prompts, hfilters]
    exact List.perm_insertionSort promptOrd _
  · rw [search_prompts]
    exact List.sorted_insertionSort promptOrd _

theorem search_prompts_spec_witness :
    (search_prompts c8Store "B" "" "").Perm
      (c8Store.prompts.filter (fun p => ciContains "B" p.title || ciContains "B" p.content ||
        ciContains "B" p.description)) ∧
    (search_prompts c8Store "B" "" "").Sorted promptOrd :=
  search_prompts_spec c8Store "B" (by decide)
